import Mathlib

/-!
Verification of the polygonalize pipeline: a shallow embedding of the
coordinate primitives, the plane matcher, the path-graph builder with
dead-end pruning, and the two polygon tracers, together with theorems
settling the specification claims.  Floating-point numbers are modelled
as exact reals except where a claim is specifically about bit-level
float behaviour, where a dedicated bit-pattern model is used.
-/

set_option autoImplicit false
set_option maxHeartbeats 1000000

noncomputable section

open scoped Classical

namespace Polygonalize

/-- Coordinates in three-dimensional space (`coordinates.rs`, `Coordinates`).
Components are modelled as exact reals. -/
structure Coordinates where
  x : ℝ
  y : ℝ
  z : ℝ

/-- A three-dimensional vector (`coordinates.rs`, `CoordinatesVector`). -/
structure CoordinatesVector where
  x : ℝ
  y : ℝ
  z : ℝ

/-- The machine epsilon `f64::EPSILON = 2^(-52)` used by the source for
normalization thresholds. -/
def fEPS : ℝ := 1 / 2 ^ 52

namespace CoordinatesVector

/-- `CoordinatesVector::rescale`. -/
def rescale (v : CoordinatesVector) (multiplier : ℝ) : CoordinatesVector :=
  ⟨multiplier * v.x, multiplier * v.y, multiplier * v.z⟩

/-- `CoordinatesVector::norm`. -/
def norm (v : CoordinatesVector) : ℝ :=
  Real.sqrt (v.x * v.x + v.y * v.y + v.z * v.z)

/-- `CoordinatesVector::flip`. -/
def flip (v : CoordinatesVector) : CoordinatesVector :=
  v.rescale (-1)

/-- `CoordinatesVector::normalize`: `none` when the norm is at most
`epsilon`, otherwise the unit rescaling. -/
def normalize (v : CoordinatesVector) (epsilon : ℝ) : Option CoordinatesVector :=
  if v.norm ≤ epsilon then none else some (v.rescale (1 / v.norm))

/-- `CoordinatesVector::dot`. -/
def dot (v other : CoordinatesVector) : ℝ :=
  v.x * other.x + v.y * other.y + v.z * other.z

/-- Modelled from the spec: the raw cross product.  `plane.rs` and
`polygon.rs` call `CoordinatesVector::cross`, which is missing from the
`coordinates.rs` revision in the sources; the spec lists the cross
product among the vector primitives, and `normal` / `normal_direction_to`
in `coordinates.rs` inline exactly this formula. -/
def cross (v other : CoordinatesVector) : CoordinatesVector :=
  ⟨v.y * other.z - v.z * other.y,
   v.z * other.x - v.x * other.z,
   v.x * other.y - v.y * other.x⟩

/-- `CoordinatesVector::normal`: the normalized cross product, or `none`
when its norm is at most `epsilon`. -/
def normal (v other : CoordinatesVector) (epsilon : ℝ) : Option CoordinatesVector :=
  let result := cross v other
  if result.norm ≤ epsilon then none else some (result.rescale (1 / result.norm))

/-- `CoordinatesVector::is_parallel_to`. -/
def isParallelTo (v other : CoordinatesVector) (epsilon : ℝ) : Bool :=
  (normal v other epsilon).isNone

/-- `CoordinatesVector::unscaled`: the displacement of a connection. -/
def unscaled (connection : Coordinates × Coordinates) : CoordinatesVector :=
  ⟨connection.2.x - connection.1.x,
   connection.2.y - connection.1.y,
   connection.2.z - connection.1.z⟩

/-- `CoordinatesVector::from`: the normalized displacement of a
connection.  The source computes `normalize(f64::EPSILON).unwrap()`;
`none` models the panic of that `unwrap` on a degenerate connection. -/
def fromConn (connection : Coordinates × Coordinates) : Option CoordinatesVector :=
  (unscaled connection).normalize fEPS

end CoordinatesVector

/-- A concrete plane: normal plus two basis vectors (`plane.rs`, `Plane`). -/
structure Plane where
  normal : CoordinatesVector
  basis : CoordinatesVector × CoordinatesVector

/-- A plane matcher: an optional plane plus the collinearity threshold
(`plane.rs`, `PlaneMatcher`). -/
structure PlaneMatcher where
  plane : Option Plane
  epsilon : ℝ

namespace PlaneMatcher

/-- `PlaneMatcher::undefined`. -/
def undefined (epsilon : ℝ) : PlaneMatcher :=
  ⟨none, epsilon⟩

/-- `PlaneMatcher::is_undefined`. -/
def isUndefined (m : PlaneMatcher) : Bool :=
  m.plane.isNone

/-- `PlaneMatcher::is_same_as`: true when both planes are concrete with
ε-parallel normals (using the left matcher's epsilon). -/
def isSameAs (m other : PlaneMatcher) : Bool :=
  match m.plane, other.plane with
  | some p, some q => CoordinatesVector.isParallelTo p.normal q.normal m.epsilon
  | _, _ => false

/-- The `PartialEq` implementation of `PlaneMatcher`, which delegates to
`is_same_as`. -/
def planeEq (m other : PlaneMatcher) : Bool :=
  isSameAs m other

/-- `PlaneMatcher::match_against` as written in `plane.rs` (it takes no
relaxed flag there). -/
def matchAgainst (m other : PlaneMatcher) : Option PlaneMatcher :=
  match m.plane, other.plane with
  | some p, some q =>
      if CoordinatesVector.isParallelTo p.normal q.normal m.epsilon then some m else none
  | some _, none => some m
  | none, some _ => some other
  | none, none => none

/-- Modelled from the spec: the two-argument
`match_against(other, relaxed)` that `path.rs` calls but that is missing
from the `plane.rs` revision in the sources.  Per the spec, when both
planes are concrete it succeeds returning `self` when the normals are
ε-parallel or unconditionally when `relaxed` is set; one concrete side
wins; both undefined fails. -/
def matchAgainstRelaxed (m other : PlaneMatcher) (relaxed : Bool) : Option PlaneMatcher :=
  match m.plane, other.plane with
  | some p, some q =>
      if relaxed then some m
      else if CoordinatesVector.isParallelTo p.normal q.normal m.epsilon then some m else none
  | some _, none => some m
  | none, some _ => some other
  | none, none => none

/-- `PlaneMatcher::project`: the vector expressed in the plane's local
frame, renormalized with the matcher's epsilon. -/
def project (m : PlaneMatcher) (vector : CoordinatesVector) : Option CoordinatesVector :=
  match m.plane with
  | some plane =>
      CoordinatesVector.normalize
        ⟨plane.basis.1.dot vector, plane.basis.2.dot vector, plane.normal.dot vector⟩
        m.epsilon
  | none => none

/-- Rust's `f64::atan2(self = y, other = x)` modelled through the complex
argument: `atan2 y x = arg (x + y i)`. -/
def atan2 (y x : ℝ) : ℝ :=
  Complex.arg ⟨x, y⟩

/-- `PlaneMatcher::project_angle_between`: the clockwise angle between the
projections, `π + atan2(cross_z, dot)`. -/
def projectAngleBetween (m : PlaneMatcher) (current successor : CoordinatesVector) : Option ℝ :=
  match m.project current, m.project successor with
  | some u, some v => some (Real.pi + atan2 (v.y * u.x - v.x * u.y) (u.x * v.x + u.y * v.y))
  | _, _ => none

end PlaneMatcher

/-- First-match association-list lookup, modelling `HashMap::get`. -/
def alookup {α β : Type} (l : List (α × β)) (k : α) : Option β :=
  match l with
  | [] => none
  | (a, b) :: rest => if k = a then some b else alookup rest k

/-- The memoization table of the tracers (`RecursionCache.table`),
modelled as an association list in insertion order. -/
def CacheTable : Type :=
  List ((Coordinates × Coordinates × Coordinates) × List PlaneMatcher)

/-- `RecursionCache::contains`: whether some matcher stored under the
triple compares equal (via the `PartialEq` of `PlaneMatcher`) to `plane`. -/
def cacheContains (table : CacheTable) (path : Coordinates × Coordinates × Coordinates)
    (plane : PlaneMatcher) : Bool :=
  match alookup table path with
  | some matchers => matchers.any fun matcher => PlaneMatcher.planeEq matcher plane
  | none => false

/-- `RecursionCache::insert`: append `plane` to the triple's entry,
creating the entry when absent. -/
def cacheInsert (table : CacheTable) (path : Coordinates × Coordinates × Coordinates)
    (plane : PlaneMatcher) : CacheTable :=
  match table with
  | [] => [(path, [plane])]
  | (k, ms) :: rest =>
      if path = k then (k, ms ++ [plane]) :: rest else (k, ms) :: cacheInsert rest path plane

namespace PolygonalPath

/-! ### Polygon validity (`polygon.rs`, `PolygonalPath`)

Results are wrapped in an outer `Option`: `none` models a panic of
`CoordinatesVector::from`'s `unwrap` (or of an out-of-bounds index), an
inner `none` models the handled absence of a projected angle. -/

/-- The `sequence` built by `PolygonalPath::from`: the input vertices
followed by a repetition of the first vertex (empty input gives the
empty sequence). -/
def pathFromSeq (stack : List Coordinates) : List Coordinates :=
  match stack.head? with
  | some root => stack ++ [root]
  | none => []

/-- The loop of `sum_interior_angles_on`: fold the projected angle of
every consecutive vertex triple into the accumulator `total`, stopping
with an inner `none` on the first undefined angle (the `?` operator) and
with an outer `none` when an edge vector panics. -/
def sumInteriorAux (m : PlaneMatcher) : List Coordinates → ℝ → Option (Option ℝ)
  | a :: b :: c :: rest, total =>
      match CoordinatesVector.fromConn (a, b) with
      | none => none
      | some u =>
          match CoordinatesVector.fromConn (b, c) with
          | none => none
          | some v =>
              match m.projectAngleBetween u v with
              | none => some none
              | some theta => sumInteriorAux m (b :: c :: rest) (total + theta)
  | _, total => some (some total)

/-- The closing angle of `sum_interior_angles_on`, between the edge
`(sequence[len - 2], sequence[0])` and the edge
`(sequence[0], sequence[1])`.  Out-of-bounds indexing yields the outer
`none` (a panic). -/
def closingAngle (m : PlaneMatcher) (seq : List Coordinates) : Option (Option ℝ) :=
  match seq.get? (seq.length - 2), seq.get? 0, seq.get? 1 with
  | some p, some q, some r =>
      match CoordinatesVector.fromConn (p, q) with
      | none => none
      | some u =>
          match CoordinatesVector.fromConn (q, r) with
          | none => none
          | some v => some (m.projectAngleBetween u v)
  | _, _, _ => none

/-- `PolygonalPath::sum_interior_angles_on`.  For sequences of length at
most 1 the source loop indexes out of bounds (after a wrapping `usize`
subtraction), which the outer `none` models; such sequences reach this
function only with length exactly 1, since the caller filters out the
empty sequence first. -/
def sumInteriorAngles (m : PlaneMatcher) (seq : List Coordinates) : Option (Option ℝ) :=
  if seq.length < 2 then none
  else
    match sumInteriorAux m seq 0 with
    | none => none
    | some none => some none
    | some (some total) =>
        match closingAngle m seq with
        | none => none
        | some none => some none
        | some (some current) => some (some (total + current))

/-- `PolygonalPath::is_valid_on`.  The angle-sum target is written with a
truncated natural subtraction `len - 3`; the source wraps the `usize`
subtraction instead, but the comparison is only reachable for sequences
of length at least 3 (shorter closed sequences already fail inside
`sum_interior_angles_on`), where the two agree. -/
def isValidOn (seq : List Coordinates) (m : PlaneMatcher) (tolerance : ℝ) : Option Bool :=
  if seq = [] ∨ seq.head? ≠ seq.getLast? then some false
  else
    match sumInteriorAngles m seq with
    | none => none
    | some none => some false
    | some (some total) =>
        some (decide (|total - Real.pi * ((seq.length - 3 : ℕ) : ℝ)| ≤ tolerance))

/-- The projected angle of one vertex triple, with the panic of a
degenerate edge collapsed into `none` (used to state the claim's
"every consecutive projected angle is defined"). -/
def angleTriple (m : PlaneMatcher) (t : Coordinates × Coordinates × Coordinates) : Option ℝ :=
  match CoordinatesVector.fromConn (t.1, t.2.1) with
  | none => none
  | some u =>
      match CoordinatesVector.fromConn (t.2.1, t.2.2) with
      | none => none
      | some v => m.projectAngleBetween u v

/-- All consecutive vertex triples of a sequence. -/
def consecutiveTriples : List Coordinates → List (Coordinates × Coordinates × Coordinates)
  | a :: b :: c :: rest => (a, b, c) :: consecutiveTriples (b :: c :: rest)
  | _ => []

/-- The consecutive triples together with the closing triple
`(sequence[len - 2], sequence[0], sequence[1])`. -/
def claimTriples (seq : List Coordinates) : List (Coordinates × Coordinates × Coordinates) :=
  consecutiveTriples seq ++
    (match seq.get? (seq.length - 2), seq.get? 0, seq.get? 1 with
     | some p, some q, some r => [(p, q, r)]
     | _, _, _ => [])

/-- The list of projected angles named by the claim. -/
def claimAngles (m : PlaneMatcher) (seq : List Coordinates) : List (Option ℝ) :=
  (claimTriples seq).map fun t => angleTriple m t

/-- The scanning loop of `reverse_if_normal_is_negative` (`polygon.rs`):
advance over consecutive triples while their two edge vectors are
parallel; return the first non-parallel pair of edge vectors, the inner
`none` when the scan falls off the end, and the outer `none` when an
edge vector panics. -/
def firstNonParallel (eps : ℝ) : List Coordinates →
    Option (Option (CoordinatesVector × CoordinatesVector))
  | a :: b :: c :: rest =>
      match CoordinatesVector.fromConn (a, b) with
      | none => none
      | some u =>
          match CoordinatesVector.fromConn (b, c) with
          | none => none
          | some v =>
              if CoordinatesVector.isParallelTo u v eps then firstNonParallel eps (b :: c :: rest)
              else some (some (u, v))
  | _ => some none

/-- `PolygonalPath::reverse_if_normal_is_negative`: reverse the sequence
when the first non-parallel consecutive edge pair has a cross product
with negative z-component.  Sequences of length at most 1 make the
source loop index out of bounds after a wrapping `usize` subtraction,
modelled by `none`. -/
def reverseIfNormalIsNegative (seq : List Coordinates) (eps : ℝ) : Option (List Coordinates) :=
  if seq.length < 2 then none
  else
    match firstNonParallel eps seq with
    | none => none
    | some none => some seq
    | some (some (u, v)) =>
        if (CoordinatesVector.cross u v).z < 0 then some seq.reverse else some seq

end PolygonalPath

/-- The six corners of an L-shaped polygon in the xy-plane, listed so
that the first vertex triple is the reflex corner. -/
def lA : Coordinates := ⟨2, 1, 0⟩

def lB : Coordinates := ⟨1, 1, 0⟩

def lC : Coordinates := ⟨1, 2, 0⟩

def lD : Coordinates := ⟨0, 2, 0⟩

def lE : Coordinates := ⟨0, 0, 0⟩

def lF : Coordinates := ⟨2, 0, 0⟩

/-- The L-shaped counterclockwise polygon starting at its reflex corner. -/
def lShape : List Coordinates := [lA, lB, lC, lD, lE, lF, lA]

/-- The reverse of `lShape`. -/
def lShapeRev : List Coordinates := [lA, lF, lE, lD, lC, lB, lA]

/-- The four corners of a clockwise unit square in the xy-plane. -/
def cA : Coordinates := ⟨0, 0, 0⟩

def cB : Coordinates := ⟨0, 1, 0⟩

def cC : Coordinates := ⟨1, 1, 0⟩

def cD : Coordinates := ⟨1, 0, 0⟩

/-- The closed clockwise square sequence. -/
def sqSeq : List Coordinates := [cA, cB, cC, cD, cA]

/-! ### Concrete matchers used in several concrete evaluations -/

/-- A matcher for the xy-plane: normal along z, basis the x and y axes. -/
def mZ : PlaneMatcher :=
  ⟨some ⟨⟨0, 0, 1⟩, (⟨1, 0, 0⟩, ⟨0, 1, 0⟩)⟩, 1 / 10⟩

/-- A matcher for the yz-plane: normal along x. -/
def mX : PlaneMatcher :=
  ⟨some ⟨⟨1, 0, 0⟩, (⟨0, 1, 0⟩, ⟨0, 0, 1⟩)⟩, 1 / 10⟩

/-- A matcher for the xz-plane: normal along y. -/
def mY : PlaneMatcher :=
  ⟨some ⟨⟨0, 1, 0⟩, (⟨0, 0, 1⟩, ⟨1, 0, 0⟩)⟩, 1 / 10⟩

/-! ### Path-graph successor registration (`pathgraph.rs`) -/

/-- A successor connection with its projected angle
(`pathgraph.rs`, `ProjectedIntersection`). -/
structure ProjectedIntersection where
  successor : Coordinates × Coordinates
  angle : Option ℝ

/-- `ProjectedIntersection::on_plane`; the outer `Option` models the
panic of `CoordinatesVector::from` on a degenerate connection. -/
def ProjectedIntersection.onPlane (plane : PlaneMatcher)
    (current successor : Coordinates × Coordinates) : Option ProjectedIntersection :=
  match CoordinatesVector.fromConn current with
  | none => none
  | some u =>
      match CoordinatesVector.fromConn successor with
      | none => none
      | some v => some ⟨successor, plane.projectAngleBetween u v⟩

/-- The matcher-walking loop of `PathGraphBuilder::build` (the loop over
`matchers` at lines 157-167): append the projected `adjacent` to every
bucket whose matcher compares equal to `plane`, and report whether any
bucket matched. -/
def registerAux (plane : PlaneMatcher) (incident adjacent : Coordinates × Coordinates) :
    List (PlaneMatcher × List ProjectedIntersection) →
      Option (List (PlaneMatcher × List ProjectedIntersection) × Bool)
  | [] => some ([], false)
  | (matcher, successors) :: rest =>
      if PlaneMatcher.planeEq matcher plane then
        match ProjectedIntersection.onPlane matcher incident adjacent with
        | none => none
        | some proj =>
            match registerAux plane incident adjacent rest with
            | none => none
            | some (rest2, _) => some ((matcher, successors ++ [proj]) :: rest2, true)
      else
        match registerAux plane incident adjacent rest with
        | none => none
        | some (rest2, matched) => some ((matcher, successors) :: rest2, matched)

/-- The defined-plane registration step of `PathGraphBuilder::build`
(lines 153-181): walk the registered buckets of `incident`, then
register a fresh bucket for `plane` when none matched. -/
def registerSuccessor (matchers : List (PlaneMatcher × List ProjectedIntersection))
    (plane : PlaneMatcher) (incident adjacent : Coordinates × Coordinates) :
    Option (List (PlaneMatcher × List ProjectedIntersection)) :=
  match registerAux plane incident adjacent matchers with
  | none => none
  | some (ms, matched) =>
      if matched then some ms
      else
        match ProjectedIntersection.onPlane plane incident adjacent with
        | none => none
        | some proj => some (ms ++ [(plane, [proj])])

/-- The two registered matchers and the incoming plane of the C1
counterexample: both registered normals are within ε = 7/10 of the new
plane's normal, while not being within ε of each other. -/
def m1cx : PlaneMatcher :=
  ⟨some ⟨⟨0, 0, 1⟩, (⟨1, 0, 0⟩, ⟨0, 1, 0⟩)⟩, 7 / 10⟩

def m2cx : PlaneMatcher :=
  ⟨some ⟨⟨4 / 5, 0, 3 / 5⟩, (⟨1, 0, 0⟩, ⟨0, 1, 0⟩)⟩, 7 / 10⟩

def pcx : PlaneMatcher :=
  ⟨some ⟨⟨3 / 5, 0, 4 / 5⟩, (⟨1, 0, 0⟩, ⟨0, 1, 0⟩)⟩, 7 / 10⟩

namespace Bits

/-! ### Bit-level model of `Coordinates` equality, ordering and hashing

Claim C6 is about IEEE-754 comparison versus bit patterns, so the
geometric real-number model does not apply; this dedicated model keeps
the distinctions that matter: exact numeric values, the negative zero
(numerically equal to `num 0` but with a different bit pattern), and
NaN (never equal to anything, ordered with nothing). -/

/-- A partial bit-level model of an `f64` value. -/
inductive F64 : Type
  | num (q : ℚ)
  | negZero
  | nan
deriving DecidableEq

/-- IEEE `==` on doubles: `+0.0 == -0.0` holds, NaN equals nothing. -/
def feq : F64 → F64 → Bool
  | .num a, .num b => a == b
  | .num a, .negZero => a == 0
  | .negZero, .num b => 0 == b
  | .negZero, .negZero => true
  | _, _ => false

/-- IEEE `<` on doubles: NaN compares less than nothing. -/
def flt : F64 → F64 → Bool
  | .num a, .num b => decide (a < b)
  | .num a, .negZero => decide (a < 0)
  | .negZero, .num b => decide (0 < b)
  | _, _ => false

/-- The bit pattern written by `f64::to_bits`, as an abstract injective
word: `num 0` and `negZero` receive different words. -/
def toBits : F64 → ℕ
  | .nan => 0
  | .negZero => 1
  | .num q => 2 + 2 * Nat.pair q.den q.num.natAbs + (if q.num < 0 then 1 else 0)

/-- A model of a point used as a graph key. -/
abbrev Coords : Type := F64 × F64 × F64

/-- `impl PartialEq for Coordinates`: componentwise IEEE equality. -/
def coordEq (p q : Coords) : Bool :=
  feq p.1 q.1 && feq p.2.1 q.2.1 && feq p.2.2 q.2.2

/-- `impl Ord for Coordinates`: the if-chain of `<` and `>` comparisons
on x, then y, then z. -/
def coordCmp (p q : Coords) : Ordering :=
  if flt p.1 q.1 then .lt
  else if flt q.1 p.1 then .gt
  else if flt p.2.1 q.2.1 then .lt
  else if flt q.2.1 p.2.1 then .gt
  else if flt p.2.2 q.2.2 then .lt
  else if flt q.2.2 p.2.2 then .gt
  else .eq

/-- `impl Hash for Coordinates` writes `to_bits` of x, y, z to the
hasher; this is the written word stream, which determines the hash. -/
def hashStream (p : Coords) : ℕ × ℕ × ℕ :=
  (toBits p.1, toBits p.2.1, toBits p.2.2)

/-- Whether a component is an ordinary numeric value (not `-0.0`, not
NaN). -/
def isNum : F64 → Bool
  | .num _ => true
  | _ => false

/-- A point whose three components are ordinary numeric values. -/
def regular (p : Coords) : Bool :=
  isNum p.1 && isNum p.2.1 && isNum p.2.2

end Bits

namespace Prune
variable {V : Type} [DecidableEq V]

/-! ### Connectivity graph construction and dead-end pruning
(`pathgraph.rs`, `PathGraphBuilder::from`)

The pruning algorithm uses only equality and hashing of `Coordinates`,
so it is embedded generically over the key type.  `HashMap` /`HashSet`
contents are association lists / lists whose order determinizes the
nondeterministic iteration order of the hash containers; neighbor lists
are kept duplicate-free like `HashSet`. -/

/-- First-match association lookup (`HashMap::get`). -/
def lookupA : List (V × List V) → V → Option (List V)
  | [], _ => none
  | (k, ns) :: rest, v => if v = k then some ns else lookupA rest v

/-- `HashMap::contains_key`. -/
def containsKey (adj : List (V × List V)) (v : V) : Bool :=
  (lookupA adj v).isSome

/-- `HashSet::insert` on a neighbor list. -/
def insertNb (ns : List V) (v : V) : List V :=
  if v ∈ ns then ns else ns ++ [v]

/-- `adjacencies.entry(u).and_modify(|to| to.insert(v)).or_insert([v])`. -/
def addNeighbor : List (V × List V) → V → V → List (V × List V)
  | [], u, v => [(u, [v])]
  | (k, ns) :: rest, u, v =>
      if u = k then (k, insertNb ns v) :: rest else (k, ns) :: addNeighbor rest u v

/-- The adjacency-construction loop of `PathGraphBuilder::from`: each
connection inserts both directions. -/
def adjacenciesOf (connections : List (V × V)) : List (V × List V) :=
  connections.foldl (fun adj c => addNeighbor (addNeighbor adj c.1 c.2) c.2 c.1) []

/-- Update the entry of `u` in place when present (`entry(u).and_modify`). -/
def modifyEntry : List (V × List V) → V → (List V → List V) → List (V × List V)
  | [], _, _ => []
  | (k, ns) :: rest, u, f =>
      if u = k then (k, f ns) :: rest else (k, ns) :: modifyEntry rest u f

/-- `HashMap::remove`. -/
def eraseKey : List (V × List V) → V → List (V × List V)
  | [], _ => []
  | (k, ns) :: rest, u => if u = k then rest else (k, ns) :: eraseKey rest u

/-- Processing of a single leaf inside a pruning round (`pathgraph.rs`
lines 91-105): when the leaf is still in the map, read its first
neighbor, mark that neighbor as a next-round candidate when its current
degree is at most 2, remove the leaf from that neighbor's set and remove
the leaf's own entry.  (The source indexes `adjacencies[adjacent]`,
which is always present when reached; the model reads a default empty
list in the unreachable case.) -/
def pruneLeaf (adj : List (V × List V)) (updated : List V) (leaf : V) :
    List (V × List V) × List V :=
  match lookupA adj leaf with
  | none => (adj, updated)
  | some ns =>
      match ns.head? with
      | none => (eraseKey adj leaf, updated)
      | some adjacent =>
          let updated2 :=
            if ((lookupA adj adjacent).getD []).length ≤ 2 then insertNb updated adjacent
            else updated
          let adj2 := modifyEntry adj adjacent fun ms => ms.erase leaf
          (eraseKey adj2 leaf, updated2)

/-- One round of the pruning loop body: process every pending leaf,
collecting the next generation of leaves. -/
def pruneRound (adj : List (V × List V)) (leaves : List V) :
    List (V × List V) × List V :=
  leaves.foldl (fun st leaf => pruneLeaf st.1 st.2 leaf) (adj, [])

/-- The `while !leaves.is_empty()` loop, fuel-indexed; `length + 2`
rounds always suffice because every round either removes an entry or
produces no new leaves. -/
def pruneLoop : ℕ → List (V × List V) → List V → List (V × List V)
  | 0, adj, _ => adj
  | fuel + 1, adj, leaves =>
      if leaves = [] then adj
      else
        let st := pruneRound adj leaves
        pruneLoop fuel st.1 st.2

/-- `PathGraphBuilder::from`: build the undirected adjacency mapping,
collect the initial degree-1 leaves, and prune until no leaves remain. -/
def builderFrom (connections : List (V × V)) : List (V × List V) :=
  let adj := adjacenciesOf connections
  let leaves := (adj.filter fun e => e.2.length == 1).map fun e => e.1
  pruneLoop (adj.length + 2) adj leaves

/-- The no-low-degree invariant: every entry of degree at most 1 is
registered as pending work. -/
def Inv (adj : List (V × List V)) (work : List V) : Prop :=
  ∀ e ∈ adj, e.2.length ≤ 1 → e.1 ∈ work

/-- Uniqueness of keys, as holds for a `HashMap`. -/
def NodupKeys (adj : List (V × List V)) : Prop :=
  (adj.map fun e => e.1).Nodup

end Prune

/-! ### The plane-annotated graph builder (`pathgraph.rs`,
`PathGraphBuilder::build`)

The whole build runs in an `Option` monad where `none` models a panic;
`HashMap` iteration order is determinized by association-list order. -/

/-- The plane-annotated graph (`pathgraph.rs`, `PathGraph`): each
connection maps to its list of (plane, chosen successor) pairs. -/
abbrev PathGraphL : Type :=
  List ((Coordinates × Coordinates) × List (PlaneMatcher × (Coordinates × Coordinates)))

/-- The intersections map under construction: each connection maps to
its registered (matcher, projected successors) buckets. -/
abbrev IMap : Type :=
  List ((Coordinates × Coordinates) × List (PlaneMatcher × List ProjectedIntersection))

/-- The deferred collinear pairs (`undefined` in the source), a map from
incident to adjacent connection with overwrite-on-insert. -/
abbrev UMap : Type :=
  List ((Coordinates × Coordinates) × (Coordinates × Coordinates))

noncomputable instance : DecidableEq Coordinates := Classical.decEq _

/-- `PlaneMatcher::between`, with the fixed seeded random reference
direction abstracted as the parameter `r` (the source derives it from
`StdRng::seed_from_u64(0)`; the spec calls it an arbitrary but fixed
reference direction).  `none` models the panics of the internal
`unwrap`s when a basis vector degenerates. -/
def betweenOpt (r : CoordinatesVector) (current successor : CoordinatesVector) (eps : ℝ) :
    Option PlaneMatcher :=
  match (CoordinatesVector.cross current successor).normalize eps with
  | none => some (PlaneMatcher.undefined eps)
  | some normal0 =>
      let normal := if normal0.z < 0 then normal0.rescale (-1) else normal0
      match r.normalize fEPS with
      | none => none
      | some r2 =>
          match (CoordinatesVector.cross normal r2).normalize fEPS with
          | none => none
          | some u =>
              match (CoordinatesVector.cross normal u).normalize fEPS with
              | none => none
              | some v => some ⟨some ⟨normal, (u, v)⟩, eps⟩

/-- `intersections.entry(k).or_default()`. -/
def initEntry (m : IMap) (k : Coordinates × Coordinates) : IMap :=
  if (alookup m k).isSome then m else m ++ [(k, [])]

/-- Replace the value stored under an existing key. -/
def replaceEntry :
    IMap → (Coordinates × Coordinates) →
      List (PlaneMatcher × List ProjectedIntersection) → IMap
  | [], _, _ => []
  | (k, ms) :: rest, key, v =>
      if key = k then (k, v) :: rest else (k, ms) :: replaceEntry rest key v

/-- `HashMap::insert` with overwrite semantics, for the deferred
collinear pairs. -/
def insertOW : UMap → (Coordinates × Coordinates) → (Coordinates × Coordinates) → UMap
  | [], k, v => [(k, v)]
  | (k0, v0) :: rest, k, v =>
      if k = k0 then (k0, v) :: rest else (k0, v0) :: insertOW rest k v

/-- The body of the inner `for v in neighbors` loop of
`PathGraphBuilder::build` (lines 136-182). -/
def processPair (r : CoordinatesVector) (eps : ℝ) (intersection u v : Coordinates)
    (st : IMap × UMap) : Option (IMap × UMap) :=
  if u = v then some st
  else
    let incident := (u, intersection)
    let adjacent := (intersection, v)
    match CoordinatesVector.fromConn incident with
    | none => none
    | some vi =>
        match CoordinatesVector.fromConn adjacent with
        | none => none
        | some va =>
            match betweenOpt r vi va eps with
            | none => none
            | some plane =>
                let im1 := initEntry st.1 adjacent
                if plane.isUndefined then some (im1, insertOW st.2 incident adjacent)
                else
                  match alookup im1 incident with
                  | none => some (im1, st.2)
                  | some ms =>
                      (registerSuccessor ms plane incident adjacent).map fun ms2 =>
                        (replaceEntry im1 incident ms2, st.2)

/-- The body of the `for u in neighbors` loop: initialize the incident
entry, then process every pair. -/
def processNeighborU (r : CoordinatesVector) (eps : ℝ) (intersection : Coordinates)
    (neighbors : List Coordinates) (st : IMap × UMap) (u : Coordinates) :
    Option (IMap × UMap) :=
  neighbors.foldl (fun acc v => acc.bind (processPair r eps intersection u v))
    (some (initEntry st.1 (u, intersection), st.2))

/-- The first phase of `build`: the loop over all junctions. -/
def buildPhase1 (r : CoordinatesVector) (eps : ℝ)
    (adjacencies : List (Coordinates × List Coordinates)) : Option (IMap × UMap) :=
  adjacencies.foldl
    (fun acc e =>
      acc.bind fun st =>
        e.2.foldl (fun acc2 u => acc2.bind fun st2 => processNeighborU r eps e.1 e.2 st2 u)
          (some st))
    (some ([], []))

/-- Append the projected `adjacent` to every bucket of a connection
(the first half of the deferred collinear handling). -/
def appendToAll (incident adjacent : Coordinates × Coordinates) :
    List (PlaneMatcher × List ProjectedIntersection) →
      Option (List (PlaneMatcher × List ProjectedIntersection))
  | [] => some []
  | (m, ss) :: rest =>
      match ProjectedIntersection.onPlane m incident adjacent with
      | none => none
      | some proj =>
          (appendToAll incident adjacent rest).map fun rest2 => (m, ss ++ [proj]) :: rest2

/-- The second phase of `build` (lines 186-206): every deferred
collinear pair is appended to each registered bucket of its incident
connection and additionally registered under an undefined-plane
bucket. -/
def processUndefinedPair (eps : ℝ) (im : IMap)
    (p : (Coordinates × Coordinates) × (Coordinates × Coordinates)) : Option IMap :=
  match alookup im p.1 with
  | none => some im
  | some ms =>
      (appendToAll p.1 p.2 ms).map fun ms2 =>
        replaceEntry im p.1
          (ms2 ++ [(PlaneMatcher.undefined eps, [⟨p.2, none⟩])])

def buildPhase2 (eps : ℝ) (im : IMap) (umap : UMap) : Option IMap :=
  umap.foldl (fun acc p => acc.bind fun im2 => processUndefinedPair eps im2 p) (some im)

/-- Comparison of optional angles as Rust's `PartialOrd` on
`Option<f64>` orders them: `None` is less than `Some`.  (The `unwrap`
of `partial_cmp` cannot panic in the exact-real model, where `<` on the
angles is total.) -/
def angleLtB : Option ℝ → Option ℝ → Bool
  | none, none => false
  | none, some _ => true
  | some _, none => false
  | some x, some y => decide (x < y)

/-- `min_by` over the successors of one bucket, keeping the first
minimum; `none` models the `unwrap` panic on an empty list. -/
def minByAngle : List ProjectedIntersection → Option ProjectedIntersection
  | [] => none
  | x :: rest =>
      some (rest.foldl (fun best cur => if angleLtB cur.angle best.angle then cur else best) x)

/-- Collapse each bucket to its minimum-angle successor. -/
def collapseBuckets :
    List (PlaneMatcher × List ProjectedIntersection) →
      Option (List (PlaneMatcher × (Coordinates × Coordinates)))
  | [] => some []
  | (m, succs) :: rest =>
      match minByAngle succs with
      | none => none
      | some best => (collapseBuckets rest).map fun r2 => (m, best.successor) :: r2

/-- The final mapping phase of `build`. -/
def buildPhase3 : IMap → Option PathGraphL
  | [] => some []
  | (k, ms) :: rest =>
      match collapseBuckets ms with
      | none => none
      | some l => (buildPhase3 rest).map fun r2 => (k, l) :: r2

/-- `PathGraphBuilder::build`, all three phases. -/
def buildOpt (r : CoordinatesVector) (eps : ℝ)
    (adjacencies : List (Coordinates × List Coordinates)) : Option PathGraphL :=
  match buildPhase1 r eps adjacencies with
  | none => none
  | some (im, umap) =>
      match buildPhase2 eps im umap with
      | none => none
      | some im2 => buildPhase3 im2

/-- `PathGraphBuilder::from` followed by `build`: the whole
plane-annotated-graph construction. -/
def pathGraphBuild (r : CoordinatesVector) (eps : ℝ)
    (connections : List (Coordinates × Coordinates)) : Option PathGraphL :=
  buildOpt r eps (Prune.builderFrom connections)

/-! ### The two polygon tracers (`path.rs`, `PathBuilder` and `polygon.rs`,
`PolygonalPathBuilder`)

Both tracers share one recursion skeleton (`traverse` below), differing in
the matcher call (`path.rs` passes `matchers.len() == 1` as the relaxed
flag, `polygon.rs` calls the strict one-argument `match_against`), in the
save routine (`polygon.rs` additionally requires the plane to be defined
and uses its epsilon-scanning `reverse_if_normal_is_negative`; `path.rs`
uses the `normal`-based scan of `Path::reverse_if_normal_is_negative`) and
in the cache granularity (`PathBuilder::build` clears the memoization
table before each root connection, `PolygonalPathBuilder::build` shares
one table across the whole run).  The recursion is indexed by fuel;
exhausted fuel gives `none`, so a `some` result is one the source
computes. -/

/-- `RecursionResult` (identical in `path.rs` and `polygon.rs`). -/
inductive RecRes where
  | backtrack (destination : Coordinates) (plane : PlaneMatcher) (sequence : List Coordinates)
  | closure
  | done

/-- `RecursionResult::enqueue`: during backtracking, append the vertex to
the polygon under construction. -/
def RecRes.enqueue : RecRes → Coordinates → RecRes
  | RecRes.backtrack d p s, c => RecRes.backtrack d p (s ++ [c])
  | r, _ => r

/-- Remove the first occurrence of an element (`HashSet::remove`; the
`seen` set never holds duplicates because insertion is conditional). -/
def removeFirst : List Coordinates → Coordinates → List Coordinates
  | [], _ => []
  | x :: rest, c => if x = c then rest else x :: removeFirst rest c

/-- The mutable state of a tracer: the memoization cache, the set of
saved polygons (as their vertex sequences, deduplicated by vertex set),
the traversal stack (head is the top) and the seen-set. -/
structure TraceSt where
  cache : CacheTable
  paths : List (List Coordinates)
  stack : List Coordinates
  seen : List Coordinates

/-- `PathBuilder::push` / `PolygonalPathBuilder::push`. -/
def TraceSt.push (st : TraceSt) (c : Coordinates) : TraceSt :=
  { st with
    seen := if c ∈ st.seen then st.seen else c :: st.seen,
    stack := c :: st.stack }

/-- `PathBuilder::pop` / `PolygonalPathBuilder::pop`. -/
def TraceSt.pop (st : TraceSt) : TraceSt :=
  match st.stack with
  | [] => st
  | c :: rest => { st with stack := rest, seen := removeFirst st.seen c }

/-- `precedent()`: the last visited connection
`(stack[len - 2], stack[len - 1])`, or nothing when the stack is short
(the stack is stored top-first here). -/
def precedent : List Coordinates → Option (Coordinates × Coordinates)
  | a :: b :: _ => some (b, a)
  | _ => none

/-- `root()`: the bottom of the traversal stack. -/
def rootOf : List Coordinates → Option Coordinates
  | [] => none
  | [a] => some a
  | _ :: rest => rootOf rest

/-- The cache test at the top of `traverse`: performed only when a full
connection has been visited. -/
def cacheHit (st : TraceSt) (cur1 : Coordinates) (plane : PlaneMatcher) : Bool :=
  match precedent st.stack with
  | some pre => cacheContains st.cache (pre.1, pre.2, cur1) plane
  | none => false

/-- The cache insertion at the bottom of `traverse`. -/
def cacheRecord (st : TraceSt) (cur1 : Coordinates) (plane : PlaneMatcher) : TraceSt :=
  match precedent st.stack with
  | some pre => { st with cache := cacheInsert st.cache (pre.1, pre.2, cur1) plane }
  | none => st

/-- Equality of polygons in the result sets: `PartialEq` of `Path` /
`PolygonalPath` compares the vertex sets. -/
def sameVertexSet (l1 l2 : List Coordinates) : Prop :=
  ∀ c, c ∈ l1 ↔ c ∈ l2

/-- `IndexSet::insert` / `HashSet::insert` on polygons: keep the existing
element when one with the same vertex set is present. -/
def pathsInsert (paths : List (List Coordinates)) (seq : List Coordinates) :
    List (List Coordinates) :=
  if ∃ p ∈ paths, sameVertexSet p seq then paths else paths ++ [seq]

namespace Path

/-- The scanning loop of `Path::reverse_if_normal_is_negative`
(`path.rs`): walk the consecutive triples; at the first triple whose edge
vectors form a normal (`f64::EPSILON` threshold) with negative
z-component stop with `true`; a triple with a defined non-negative
normal or no normal at all is skipped.  The outer `none` models the
panic of a degenerate edge vector. -/
def firstNegNormal : List Coordinates → Option Bool
  | a :: b :: c :: rest =>
      match CoordinatesVector.fromConn (a, b) with
      | none => none
      | some u =>
          match CoordinatesVector.fromConn (b, c) with
          | none => none
          | some v =>
              match CoordinatesVector.normal u v fEPS with
              | some n => if n.z < 0 then some true else firstNegNormal (b :: c :: rest)
              | none => firstNegNormal (b :: c :: rest)
  | _ => some false

/-- `Path::reverse_if_normal_is_negative` (`path.rs`): unlike the
`polygon.rs` variant it takes no epsilon and keeps scanning past triples
whose normal is defined but non-negative.  Sequences of length at most 1
make the source loop index out of bounds after a wrapping `usize`
subtraction, modelled by `none`. -/
def reverseIfNormalIsNegative (seq : List Coordinates) : Option (List Coordinates) :=
  if seq.length < 2 then none
  else
    match firstNegNormal seq with
    | none => none
    | some true => some seq.reverse
    | some false => some seq

end Path

/-- `PathBuilder::save` (`path.rs`): build the closed sequence, keep it
only when valid on the plane, inserting it reversed-if-needed.  `none`
models a panic inside `is_valid_on` or the reversal scan. -/
def savePathsP (eps : ℝ) (paths : List (List Coordinates)) (raw : List Coordinates)
    (plane : PlaneMatcher) : Option (List (List Coordinates)) :=
  match PolygonalPath.isValidOn (PolygonalPath.pathFromSeq raw) plane eps with
  | none => none
  | some false => some paths
  | some true =>
      match Path.reverseIfNormalIsNegative (PolygonalPath.pathFromSeq raw) with
      | none => none
      | some seq2 => some (pathsInsert paths seq2)

/-- `PolygonalPathBuilder::save` (`polygon.rs`): additionally requires
the plane to be defined (short-circuiting before validity), and uses the
epsilon-scanning reversal of `polygon.rs`. -/
def savePathsQ (eps : ℝ) (paths : List (List Coordinates)) (raw : List Coordinates)
    (plane : PlaneMatcher) : Option (List (List Coordinates)) :=
  if plane.isUndefined then some paths
  else
    match PolygonalPath.isValidOn (PolygonalPath.pathFromSeq raw) plane eps with
    | none => none
    | some false => some paths
    | some true =>
        match PolygonalPath.reverseIfNormalIsNegative (PolygonalPath.pathFromSeq raw) eps with
        | none => none
        | some seq2 => some (pathsInsert paths seq2)

/-- The matcher call of `path.rs` line 83:
`matcher.match_against(plane, matchers.len() == 1)`. -/
def matchFnP (n : ℕ) (matcher plane : PlaneMatcher) : Option PlaneMatcher :=
  matcher.matchAgainstRelaxed plane (decide (n = 1))

/-- The matcher call of `polygon.rs` line 122:
`matcher.match_against(plane)` (the successor count is unused). -/
def matchFnQ (_ : ℕ) (matcher plane : PlaneMatcher) : Option PlaneMatcher :=
  matcher.matchAgainst plane

/-- The `for (matcher, successor) in matchers` loop shared by both
`traverse` implementations, with the recursive call passed in as `tr`.
The second component of a `some` result is the early-return value if the
loop aborted through a backtrack that has not reached its destination. -/
def loopAux (tr : TraceSt → (Coordinates × Coordinates) → PlaneMatcher →
      Option (TraceSt × RecRes))
    (saveFn : List (List Coordinates) → List Coordinates → PlaneMatcher →
      Option (List (List Coordinates)))
    (matchFn : PlaneMatcher → PlaneMatcher → Option PlaneMatcher)
    (cur1 : Coordinates) (plane : PlaneMatcher) :
    List (PlaneMatcher × (Coordinates × Coordinates)) → TraceSt →
      Option (TraceSt × Option RecRes)
  | [], st => some (st, none)
  | (matcher, successor) :: rest, st =>
      match matchFn matcher plane with
      | none => loopAux tr saveFn matchFn cur1 plane rest st
      | some plane2 =>
          match tr (st.push cur1) successor plane2 with
          | none => none
          | some (st2, RecRes.backtrack destination plane3 sequence) =>
              if destination = cur1 then
                match saveFn st2.paths sequence plane3 with
                | none => none
                | some ps =>
                    loopAux tr saveFn matchFn cur1 plane rest
                      (TraceSt.pop { st2 with paths := ps })
              else
                some (st2.pop,
                  some ((RecRes.backtrack destination plane3 sequence).enqueue cur1))
          | some (st2, _) => loopAux tr saveFn matchFn cur1 plane rest st2.pop
  termination_by l _ => l.length

/-- The recursion of `PathBuilder::traverse` / `PolygonalPathBuilder::traverse`,
parameterized by the save routine and the matcher call and indexed by
fuel (`none` on exhaustion; a panic of `root().unwrap()` is also `none`). -/
def traverse (saveFn : List (List Coordinates) → List Coordinates → PlaneMatcher →
      Option (List (List Coordinates)))
    (matchFn : ℕ → PlaneMatcher → PlaneMatcher → Option PlaneMatcher) (g : PathGraphL) :
    ℕ → TraceSt → (Coordinates × Coordinates) → PlaneMatcher → Option (TraceSt × RecRes)
  | 0, _, _, _ => none
  | fuel + 1, st, current, plane =>
      if cacheHit st current.2 plane then some (st, RecRes.done)
      else
        match rootOf st.stack with
        | none => none
        | some root =>
            if current.2 = root then
              match saveFn st.paths st.stack.reverse plane with
              | none => none
              | some ps => some ({ st with paths := ps }, RecRes.closure)
            else if current.2 ∈ st.seen then
              some (st, RecRes.backtrack current.2 plane [current.2])
            else
              match
                (match alookup g current with
                 | none => some (st, none)
                 | some matchers =>
                     loopAux (traverse saveFn matchFn g fuel) saveFn
                       (matchFn matchers.length) current.2 plane matchers st)
              with
              | none => none
              | some (st2, some res) => some (st2, res)
              | some (st2, none) => some (cacheRecord st2 current.2 plane, RecRes.done)

/-- One iteration of `PathBuilder::build` (`path.rs` lines 51-56): clear
the cache, push the source's first vertex, traverse, pop. -/
def buildStepP (g : PathGraphL) (eps : ℝ) (fuel : ℕ) (st : TraceSt)
    (source : Coordinates × Coordinates) : Option TraceSt :=
  match traverse (savePathsP eps) matchFnP g fuel
      (TraceSt.push { st with cache := [] } source.1) source
      (PlaneMatcher.undefined eps) with
  | none => none
  | some (st2, _) => some st2.pop

/-- `PathBuilder::build`: iterate over the graph keys with a cache
cleared before every root, returning the saved polygons. -/
def buildP (g : PathGraphL) (eps : ℝ) (fuel : ℕ) : Option (List (List Coordinates)) :=
  (g.foldl (fun acc e => acc.bind fun st => buildStepP g eps fuel st e.1)
      (some ⟨[], [], [], []⟩)).map fun st => st.paths

/-- One iteration of `PolygonalPathBuilder::build` (`polygon.rs` lines
70-78): the cache is NOT cleared between roots. -/
def buildStepQ (g : PathGraphL) (eps : ℝ) (fuel : ℕ) (st : TraceSt)
    (source : Coordinates × Coordinates) : Option TraceSt :=
  match traverse (savePathsQ eps) matchFnQ g fuel (TraceSt.push st source.1) source
      (PlaneMatcher.undefined eps) with
  | none => none
  | some (st2, _) => some st2.pop

/-- `PolygonalPathBuilder::build`: one memoization cache shared across
the whole run. -/
def buildQ (g : PathGraphL) (eps : ℝ) (fuel : ℕ) : Option (List (List Coordinates)) :=
  (g.foldl (fun acc e => acc.bind fun st => buildStepQ g eps fuel st e.1)
      (some ⟨[], [], [], []⟩)).map fun st => st.paths

/-- The plane-annotated square graph used to separate the two tracers:
each side of the unit square has exactly one successor, annotated with
the xy-plane on two opposite sides and with the yz- and xz-planes on the
others. -/
def sqGraph : PathGraphL :=
  [((cA, cB), [(mZ, (cB, cC))]),
   ((cB, cC), [(mX, (cC, cD))]),
   ((cC, cD), [(mZ, (cD, cA))]),
   ((cD, cA), [(mY, (cA, cB))])]

/-! ### Evaluation toolkit for concrete real-number computations -/

theorem sqrt_eval {a b : ℝ} (hb : 0 ≤ b) (h : b * b = a) : Real.sqrt a = b := by
  rw [← h]
  exact Real.sqrt_mul_self hb

theorem norm_eval (v : CoordinatesVector) (b : ℝ) (hb : 0 ≤ b)
    (h : v.x * v.x + v.y * v.y + v.z * v.z = b * b) : v.norm = b :=
  sqrt_eval hb h.symm

theorem isParallelTo_true {u v : CoordinatesVector} {eps : ℝ}
    (h : (CoordinatesVector.cross u v).norm ≤ eps) :
    CoordinatesVector.isParallelTo u v eps = true := by
  simp [CoordinatesVector.isParallelTo, CoordinatesVector.normal, h]

theorem isParallelTo_false {u v : CoordinatesVector} {eps : ℝ}
    (h : ¬ (CoordinatesVector.cross u v).norm ≤ eps) :
    CoordinatesVector.isParallelTo u v eps = false := by
  simp [CoordinatesVector.isParallelTo, CoordinatesVector.normal, h]

theorem normalize_eval {v : CoordinatesVector} {eps b : ℝ} (hn : v.norm = b)
    (h : ¬ b ≤ eps) : v.normalize eps = some (v.rescale (1 / b)) := by
  simp [CoordinatesVector.normalize, hn, h]

theorem fromConn_eval {c : Coordinates × Coordinates} {b : ℝ}
    (hn : (CoordinatesVector.unscaled c).norm = b) (h : ¬ b ≤ fEPS) :
    CoordinatesVector.fromConn c = some ((CoordinatesVector.unscaled c).rescale (1 / b)) := by
  simp [CoordinatesVector.fromConn, normalize_eval hn h]

theorem complex_mk_one : (⟨1, 0⟩ : ℂ) = 1 := by
  apply Complex.ext <;> simp

theorem complex_mk_neg_one : (⟨-1, 0⟩ : ℂ) = -1 := by
  apply Complex.ext <;> simp

theorem complex_mk_I : (⟨0, 1⟩ : ℂ) = Complex.I := by
  apply Complex.ext <;> simp

theorem complex_mk_neg_I : (⟨0, -1⟩ : ℂ) = -Complex.I := by
  apply Complex.ext <;> simp

theorem complex_mk_zero : (⟨0, 0⟩ : ℂ) = 0 := by
  apply Complex.ext <;> simp

theorem atan2_zero_one : PlaneMatcher.atan2 0 1 = 0 := by
  rw [PlaneMatcher.atan2, complex_mk_one, Complex.arg_one]

theorem atan2_zero_neg_one : PlaneMatcher.atan2 0 (-1) = Real.pi := by
  rw [PlaneMatcher.atan2, complex_mk_neg_one, Complex.arg_neg_one]

theorem atan2_one_zero : PlaneMatcher.atan2 1 0 = Real.pi / 2 := by
  rw [PlaneMatcher.atan2, complex_mk_I, Complex.arg_I]

theorem atan2_neg_one_zero : PlaneMatcher.atan2 (-1) 0 = -(Real.pi / 2) := by
  rw [PlaneMatcher.atan2, complex_mk_neg_I, Complex.arg_neg_I]

theorem atan2_zero_zero : PlaneMatcher.atan2 0 0 = 0 := by
  rw [PlaneMatcher.atan2, complex_mk_zero, Complex.arg_zero]

/-! ### Lemmas relating the angle-sum loop to the claim's angle list -/

theorem sumInteriorAux_all_defined (m : PlaneMatcher) :
    ∀ seq : List Coordinates,
      (∀ t ∈ PolygonalPath.consecutiveTriples seq, (PolygonalPath.angleTriple m t).isSome) →
        ∀ total : ℝ,
          PolygonalPath.sumInteriorAux m seq total =
            some (some (total +
              ((PolygonalPath.consecutiveTriples seq).map
                fun t => (PolygonalPath.angleTriple m t).getD 0).sum))
  | [], _, total => by simp [PolygonalPath.sumInteriorAux, PolygonalPath.consecutiveTriples]
  | [a], _, total => by simp [PolygonalPath.sumInteriorAux, PolygonalPath.consecutiveTriples]
  | [a, b], _, total => by simp [PolygonalPath.sumInteriorAux, PolygonalPath.consecutiveTriples]
  | a :: b :: c :: rest, h, total => by
      have hhead : (PolygonalPath.angleTriple m (a, b, c)).isSome :=
        h (a, b, c) (by simp [PolygonalPath.consecutiveTriples])
      have htail : ∀ t ∈ PolygonalPath.consecutiveTriples (b :: c :: rest),
          (PolygonalPath.angleTriple m t).isSome := by
        intro t ht
        exact h t (by simp [PolygonalPath.consecutiveTriples, ht])
      obtain ⟨theta, hth⟩ := Option.isSome_iff_exists.mp hhead
      rcases hu : CoordinatesVector.fromConn (a, b) with _ | u
      · unfold PolygonalPath.angleTriple at hth
        simp [hu] at hth
      rcases hv : CoordinatesVector.fromConn (b, c) with _ | v
      · unfold PolygonalPath.angleTriple at hth
        simp [hu, hv] at hth
      have hang : m.projectAngleBetween u v = some theta := by
        unfold PolygonalPath.angleTriple at hth
        simpa only [hu, hv] using hth
      simp only [PolygonalPath.sumInteriorAux, hu, hv, hang]
      rw [sumInteriorAux_all_defined m (b :: c :: rest) htail (total + theta)]
      simp only [PolygonalPath.consecutiveTriples, List.map_cons, List.sum_cons, hth]
      norm_num
      ring

theorem sumInteriorAux_fail (m : PlaneMatcher) :
    ∀ seq : List Coordinates,
      (¬ ∀ t ∈ PolygonalPath.consecutiveTriples seq, (PolygonalPath.angleTriple m t).isSome) →
        ∀ total : ℝ,
          PolygonalPath.sumInteriorAux m seq total = none ∨
            PolygonalPath.sumInteriorAux m seq total = some none
  | [], h, total => absurd (by simp [PolygonalPath.consecutiveTriples]) h
  | [a], h, total => absurd (by simp [PolygonalPath.consecutiveTriples]) h
  | [a, b], h, total => absurd (by simp [PolygonalPath.consecutiveTriples]) h
  | a :: b :: c :: rest, h, total => by
      rcases hu : CoordinatesVector.fromConn (a, b) with _ | u
      · left
        simp only [PolygonalPath.sumInteriorAux, hu]
      rcases hv : CoordinatesVector.fromConn (b, c) with _ | v
      · left
        simp only [PolygonalPath.sumInteriorAux, hu, hv]
      rcases hth : m.projectAngleBetween u v with _ | theta
      · right
        simp only [PolygonalPath.sumInteriorAux, hu, hv, hth]
      have hhead : PolygonalPath.angleTriple m (a, b, c) = some theta := by
        unfold PolygonalPath.angleTriple
        simp only [hu, hv, hth]
      have htail : ¬ ∀ t ∈ PolygonalPath.consecutiveTriples (b :: c :: rest),
          (PolygonalPath.angleTriple m t).isSome := by
        intro hall
        apply h
        intro t ht
        simp only [PolygonalPath.consecutiveTriples, List.mem_cons] at ht
        rcases ht with rfl | ht
        · simp [hhead]
        · exact hall t ht
      simp only [PolygonalPath.sumInteriorAux, hu, hv, hth]
      exact sumInteriorAux_fail m (b :: c :: rest) htail (total + theta)

theorem closingAngle_eval (m : PlaneMatcher) (seq : List Coordinates)
    (p q r : Coordinates) (hp : seq.get? (seq.length - 2) = some p)
    (hq : seq.get? 0 = some q) (hr : seq.get? 1 = some r) :
    (((PolygonalPath.angleTriple m (p, q, r)).isSome ∧
        PolygonalPath.closingAngle m seq = some (PolygonalPath.angleTriple m (p, q, r))) ∨
      (¬ (PolygonalPath.angleTriple m (p, q, r)).isSome ∧
        (PolygonalPath.closingAngle m seq = none ∨
          PolygonalPath.closingAngle m seq = some none))) := by
  unfold PolygonalPath.closingAngle PolygonalPath.angleTriple
  simp only [hp, hq, hr]
  rcases hu : CoordinatesVector.fromConn (p, q) with _ | u
  · right
    simp [hu]
  rcases hv : CoordinatesVector.fromConn (q, r) with _ | v
  · right
    simp [hu, hv]
  rcases hth : m.projectAngleBetween u v with _ | theta
  · right
    simp [hu, hv, hth]
  · left
    simp [hu, hv, hth]

/-! ### Claim C4 -/

/-- C4: for every polygon candidate (a sequence produced by
`PolygonalPath::from`), `is_valid_on` returns `true` exactly when the
sequence is non-empty, closed (first vertex equals last), every
consecutive projected angle including the closing one is defined on the
plane, and the angle sum deviates from `(n - 3)·π` by at most the
tolerance, where `n` counts the repeated closing vertex. -/
theorem c4_is_valid_on_iff (stack : List Coordinates) (m : PlaneMatcher) (tol : ℝ) :
    PolygonalPath.isValidOn (PolygonalPath.pathFromSeq stack) m tol = some true ↔
      (PolygonalPath.pathFromSeq stack ≠ [] ∧
        (PolygonalPath.pathFromSeq stack).head? = (PolygonalPath.pathFromSeq stack).getLast? ∧
        (∀ a ∈ PolygonalPath.claimAngles m (PolygonalPath.pathFromSeq stack), a.isSome) ∧
        |((PolygonalPath.claimAngles m (PolygonalPath.pathFromSeq stack)).map
            fun a => a.getD 0).sum -
          Real.pi * (((PolygonalPath.pathFromSeq stack).length - 3 : ℕ) : ℝ)| ≤ tol) := by
  rcases stack with _ | ⟨x, rest⟩
  · simp [PolygonalPath.pathFromSeq, PolygonalPath.isValidOn]
  set seq : List Coordinates := x :: (rest ++ [x]) with hseqdef
  have hseq : PolygonalPath.pathFromSeq (x :: rest) = seq := by
    simp [PolygonalPath.pathFromSeq, hseqdef]
  rw [hseq]
  have hlen : 2 ≤ seq.length := by
    rw [hseqdef]
    simp
  have hne : seq ≠ [] := by simp [hseqdef]
  have hclosed : seq.head? = seq.getLast? := by
    rw [hseqdef, show x :: (rest ++ [x]) = (x :: rest) ++ [x] by simp]
    rw [List.getLast?_concat]
    simp
  have hp : ∃ p, seq.get? (seq.length - 2) = some p :=
    ⟨_, List.get?_eq_get (by omega)⟩
  have hq : ∃ q, seq.get? 0 = some q := ⟨_, List.get?_eq_get (by omega)⟩
  have hr : ∃ r, seq.get? 1 = some r := ⟨_, List.get?_eq_get (by omega)⟩
  obtain ⟨p, hp⟩ := hp
  obtain ⟨q, hq⟩ := hq
  obtain ⟨r, hr⟩ := hr
  have htriples : PolygonalPath.claimTriples seq =
      PolygonalPath.consecutiveTriples seq ++ [(p, q, r)] := by
    unfold PolygonalPath.claimTriples
    rw [hp, hq, hr]
  have hvalid : PolygonalPath.isValidOn seq m tol =
      match PolygonalPath.sumInteriorAngles m seq with
      | none => none
      | some none => some false
      | some (some total) =>
          some (decide (|total - Real.pi * ((seq.length - 3 : ℕ) : ℝ)| ≤ tol)) := by
    have hcond : ¬ (seq = [] ∨ seq.head? ≠ seq.getLast?) := by
      push_neg
      exact ⟨hne, hclosed⟩
    unfold PolygonalPath.isValidOn
    rw [if_neg hcond]
  by_cases hall : ∀ t ∈ PolygonalPath.claimTriples seq, (PolygonalPath.angleTriple m t).isSome
  · have hcons : ∀ t ∈ PolygonalPath.consecutiveTriples seq,
        (PolygonalPath.angleTriple m t).isSome := by
      intro t ht
      exact hall t (by rw [htriples]; exact List.mem_append_left _ ht)
    have hclose : (PolygonalPath.angleTriple m (p, q, r)).isSome :=
      hall _ (by rw [htriples]; exact List.mem_append_right _ (by simp))
    obtain ⟨cth, hcth⟩ := Option.isSome_iff_exists.mp hclose
    have haux := sumInteriorAux_all_defined m seq hcons 0
    rcases closingAngle_eval m seq p q r hp hq hr with ⟨_, hclo⟩ | ⟨hbad, _⟩
    · have hsum : PolygonalPath.sumInteriorAngles m seq =
          some (some (((PolygonalPath.consecutiveTriples seq).map
              fun t => (PolygonalPath.angleTriple m t).getD 0).sum + cth)) := by
        unfold PolygonalPath.sumInteriorAngles
        rw [if_neg (by omega), haux, hclo, hcth]
        norm_num
      rw [hvalid, hsum]
      have hsumangles : ((PolygonalPath.claimAngles m seq).map fun a => a.getD 0).sum =
          ((PolygonalPath.consecutiveTriples seq).map
            fun t => (PolygonalPath.angleTriple m t).getD 0).sum + cth := by
        unfold PolygonalPath.claimAngles
        rw [htriples]
        simp [hcth]
        rfl
      rw [hsumangles]
      simp only [Option.some.injEq, decide_eq_true_eq]
      constructor
      · intro hle
        refine ⟨hne, hclosed, ?_, hle⟩
        intro a ha
        unfold PolygonalPath.claimAngles at ha
        obtain ⟨t, ht, rfl⟩ := List.mem_map.mp ha
        exact hall t ht
      · intro hconj
        exact hconj.2.2.2
    · exact absurd hclose hbad
  · have hlhs : PolygonalPath.isValidOn seq m tol ≠ some true := by
      by_cases hcons : ∀ t ∈ PolygonalPath.consecutiveTriples seq,
          (PolygonalPath.angleTriple m t).isSome
      · have hclosebad : ¬ (PolygonalPath.angleTriple m (p, q, r)).isSome := by
          intro hsome
          apply hall
          intro t ht
          rw [htriples] at ht
          rcases List.mem_append.mp ht with ht | ht
          · exact hcons t ht
          · simp at ht
            subst ht
            exact hsome
        have haux := sumInteriorAux_all_defined m seq hcons 0
        rcases closingAngle_eval m seq p q r hp hq hr with ⟨hgood, _⟩ | ⟨_, hclo⟩
        · exact absurd hgood hclosebad
        · rcases hclo with hclo | hclo <;>
          · have hsum : PolygonalPath.sumInteriorAngles m seq = none ∨
                PolygonalPath.sumInteriorAngles m seq = some none := by
              unfold PolygonalPath.sumInteriorAngles
              rw [if_neg (by omega), haux, hclo]
              simp
            rw [hvalid]
            rcases hsum with hsum | hsum <;> rw [hsum] <;> simp
      · have haux := sumInteriorAux_fail m seq hcons 0
        rw [hvalid]
        unfold PolygonalPath.sumInteriorAngles
        rw [if_neg (by omega)]
        rcases haux with haux | haux <;> rw [haux] <;> simp
    constructor
    · intro h
      exact absurd h hlhs
    · intro hconj
      apply absurd _ hall
      intro t ht
      have := hconj.2.2.1 (PolygonalPath.angleTriple m t)
      apply this
      unfold PolygonalPath.claimAngles
      exact List.mem_map.mpr ⟨t, ht, rfl⟩

/-! ### Claim C9 -/

theorem fromConn_dir {p q : Coordinates} {w : CoordinatesVector} {b : ℝ} (hb : 0 < b)
    (hbig : fEPS < b)
    (hx : q.x - p.x = b * w.x) (hy : q.y - p.y = b * w.y) (hz : q.z - p.z = b * w.z)
    (hunit : w.x * w.x + w.y * w.y + w.z * w.z = 1) :
    CoordinatesVector.fromConn (p, q) = some w := by
  have hsq : (CoordinatesVector.unscaled (p, q)).x * (CoordinatesVector.unscaled (p, q)).x +
      (CoordinatesVector.unscaled (p, q)).y * (CoordinatesVector.unscaled (p, q)).y +
      (CoordinatesVector.unscaled (p, q)).z * (CoordinatesVector.unscaled (p, q)).z = b * b := by
    simp only [CoordinatesVector.unscaled]
    rw [hx, hy, hz]
    have : b * w.x * (b * w.x) + b * w.y * (b * w.y) + b * w.z * (b * w.z) =
        b * b * (w.x * w.x + w.y * w.y + w.z * w.z) := by ring
    rw [this, hunit, mul_one]
  have hn : (CoordinatesVector.unscaled (p, q)).norm = b := norm_eval _ b hb.le hsq
  rw [fromConn_eval hn (by linarith)]
  have hbne : b ≠ 0 := ne_of_gt hb
  obtain ⟨wx, wy, wz⟩ := w
  simp only [CoordinatesVector.rescale, CoordinatesVector.unscaled] at *
  rw [hx, hy, hz]
  simp only [CoordinatesVector.mk.injEq, Option.some.injEq]
  refine ⟨?_, ?_, ?_⟩ <;> field_simp

theorem fc_lA_lB : CoordinatesVector.fromConn (lA, lB) = some ⟨-1, 0, 0⟩ :=
  fromConn_dir (b := 1) (by norm_num) (by norm_num [fEPS])
    (by norm_num [lA, lB]) (by norm_num [lA, lB]) (by norm_num [lA, lB]) (by norm_num)

theorem fc_lB_lC : CoordinatesVector.fromConn (lB, lC) = some ⟨0, 1, 0⟩ :=
  fromConn_dir (b := 1) (by norm_num) (by norm_num [fEPS])
    (by norm_num [lB, lC]) (by norm_num [lB, lC]) (by norm_num [lB, lC]) (by norm_num)

theorem fc_lA_lF : CoordinatesVector.fromConn (lA, lF) = some ⟨0, -1, 0⟩ :=
  fromConn_dir (b := 1) (by norm_num) (by norm_num [fEPS])
    (by norm_num [lA, lF]) (by norm_num [lA, lF]) (by norm_num [lA, lF]) (by norm_num)

theorem fc_lF_lE : CoordinatesVector.fromConn (lF, lE) = some ⟨-1, 0, 0⟩ :=
  fromConn_dir (b := 2) (by norm_num) (by norm_num [fEPS])
    (by norm_num [lF, lE]) (by norm_num [lF, lE]) (by norm_num [lF, lE]) (by norm_num)

theorem np_west_north :
    CoordinatesVector.isParallelTo ⟨-1, 0, 0⟩ ⟨0, 1, 0⟩ (1 / 10) = false := by
  refine isParallelTo_false ?_
  rw [show CoordinatesVector.cross ⟨-1, 0, 0⟩ ⟨0, 1, 0⟩ = ⟨0, 0, -1⟩ by
    simp [CoordinatesVector.cross]]
  rw [norm_eval _ 1 (by norm_num) (by norm_num)]
  norm_num

theorem np_south_west :
    CoordinatesVector.isParallelTo ⟨0, -1, 0⟩ ⟨-1, 0, 0⟩ (1 / 10) = false := by
  refine isParallelTo_false ?_
  rw [show CoordinatesVector.cross ⟨0, -1, 0⟩ ⟨-1, 0, 0⟩ = ⟨0, 0, -1⟩ by
    simp [CoordinatesVector.cross]]
  rw [norm_eval _ 1 (by norm_num) (by norm_num)]
  norm_num

/-- C9, counterexample: on the L-shaped polygon whose first vertex triple
is the reflex corner, one application of `reverse_if_normal_is_negative`
reverses the sequence and a second application reverses it back, so
applying it twice does not yield the same vertex sequence as applying it
once. -/
theorem c9_counterexample :
    PolygonalPath.reverseIfNormalIsNegative lShape (1 / 10) = some lShapeRev ∧
      PolygonalPath.reverseIfNormalIsNegative lShapeRev (1 / 10) = some lShape ∧
      lShape ≠ lShapeRev := by
  refine ⟨?_, ?_, ?_⟩
  · rw [show lShape = lA :: lB :: lC :: [lD, lE, lF, lA] from rfl]
    unfold PolygonalPath.reverseIfNormalIsNegative
    rw [if_neg (by norm_num)]
    simp only [PolygonalPath.firstNonParallel, fc_lA_lB, fc_lB_lC, np_west_north]
    norm_num [CoordinatesVector.cross, lShapeRev]
  · rw [show lShapeRev = lA :: lF :: lE :: [lD, lC, lB, lA] from rfl]
    unfold PolygonalPath.reverseIfNormalIsNegative
    rw [if_neg (by norm_num)]
    simp only [PolygonalPath.firstNonParallel, fc_lA_lF, fc_lF_lE, np_south_west]
    norm_num [CoordinatesVector.cross, lShape]
  · intro hcontra
    have h1 : lShape.get? 1 = lShapeRev.get? 1 := by rw [hcontra]
    norm_num [lShape, lShapeRev, lB, lF, Coordinates.mk.injEq] at h1

theorem unscaled_swap (x y : Coordinates) :
    CoordinatesVector.unscaled (y, x) = (CoordinatesVector.unscaled (x, y)).flip := by
  simp only [CoordinatesVector.unscaled, CoordinatesVector.flip, CoordinatesVector.rescale,
    CoordinatesVector.mk.injEq]
  refine ⟨by ring, by ring, by ring⟩

theorem norm_flip (w : CoordinatesVector) : w.flip.norm = w.norm := by
  simp only [CoordinatesVector.flip, CoordinatesVector.rescale, CoordinatesVector.norm]
  congr 1
  ring

theorem rescale_flip (w : CoordinatesVector) (c : ℝ) :
    w.flip.rescale c = (w.rescale c).flip := by
  simp only [CoordinatesVector.flip, CoordinatesVector.rescale, CoordinatesVector.mk.injEq]
  refine ⟨by ring, by ring, by ring⟩

theorem fromConn_flip {x y : Coordinates} {w : CoordinatesVector}
    (h : CoordinatesVector.fromConn (x, y) = some w) :
    CoordinatesVector.fromConn (y, x) = some w.flip := by
  unfold CoordinatesVector.fromConn CoordinatesVector.normalize at h ⊢
  rw [unscaled_swap, norm_flip]
  by_cases hc : (CoordinatesVector.unscaled (x, y)).norm ≤ fEPS
  · rw [if_pos hc] at h
    exact absurd h (by simp)
  · rw [if_neg hc] at h ⊢
    rw [rescale_flip]
    simp only [Option.some.injEq] at h ⊢
    rw [h]

theorem cross_flip_flip (a b : CoordinatesVector) :
    CoordinatesVector.cross a.flip b.flip = CoordinatesVector.cross a b := by
  simp only [CoordinatesVector.cross, CoordinatesVector.flip, CoordinatesVector.rescale,
    CoordinatesVector.mk.injEq]
  refine ⟨by ring, by ring, by ring⟩

theorem cross_swap (a b : CoordinatesVector) :
    CoordinatesVector.cross a b = (CoordinatesVector.cross b a).flip := by
  simp only [CoordinatesVector.cross, CoordinatesVector.flip, CoordinatesVector.rescale,
    CoordinatesVector.mk.injEq]
  refine ⟨by ring, by ring, by ring⟩

theorem mem_consecutiveTriples_iff :
    ∀ (l : List Coordinates) (t : Coordinates × Coordinates × Coordinates),
      t ∈ PolygonalPath.consecutiveTriples l ↔ [t.1, t.2.1, t.2.2] <:+: l
  | [], t => by
      constructor
      · simp [PolygonalPath.consecutiveTriples]
      · intro h
        have := h.length_le
        simp at this
  | [a], t => by
      constructor
      · simp [PolygonalPath.consecutiveTriples]
      · intro h
        have := h.length_le
        simp at this
  | [a, b], t => by
      constructor
      · simp [PolygonalPath.consecutiveTriples]
      · intro h
        have := h.length_le
        simp at this
  | a :: b :: c :: rest, t => by
      obtain ⟨t1, t2, t3⟩ := t
      constructor
      · intro ht
        simp only [PolygonalPath.consecutiveTriples, List.mem_cons] at ht
        rcases ht with heq | ht
        · obtain ⟨rfl, rfl, rfl⟩ : t1 = a ∧ t2 = b ∧ t3 = c := by
            simpa [Prod.ext_iff] using heq
          exact ⟨[], rest, by simp⟩
        · exact List.infix_cons ((mem_consecutiveTriples_iff (b :: c :: rest) (t1, t2, t3)).mp ht)
      · intro h
        rcases List.infix_cons_iff.mp h with hpre | hinf
        · obtain ⟨r, hr⟩ := hpre
          simp only [List.cons_append, List.nil_append, List.cons.injEq] at hr
          obtain ⟨rfl, rfl, rfl, -⟩ := hr
          simp [PolygonalPath.consecutiveTriples]
        · simp only [PolygonalPath.consecutiveTriples, List.mem_cons]
          exact Or.inr ((mem_consecutiveTriples_iff (b :: c :: rest) (t1, t2, t3)).mpr hinf)

theorem triples_reverse {l : List Coordinates} {t : Coordinates × Coordinates × Coordinates}
    (h : t ∈ PolygonalPath.consecutiveTriples l.reverse) :
    (t.2.2, t.2.1, t.1) ∈ PolygonalPath.consecutiveTriples l := by
  rw [mem_consecutiveTriples_iff] at h ⊢
  have h2 := h.reverse
  simpa using h2

theorem firstNonParallel_found (eps : ℝ) :
    ∀ (l : List Coordinates) (u v : CoordinatesVector),
      PolygonalPath.firstNonParallel eps l = some (some (u, v)) →
        ∃ t ∈ PolygonalPath.consecutiveTriples l,
          CoordinatesVector.fromConn (t.1, t.2.1) = some u ∧
            CoordinatesVector.fromConn (t.2.1, t.2.2) = some v
  | [], u, v => by intro h; simp [PolygonalPath.firstNonParallel] at h
  | [a], u, v => by intro h; simp [PolygonalPath.firstNonParallel] at h
  | [a, b], u, v => by intro h; simp [PolygonalPath.firstNonParallel] at h
  | a :: b :: c :: rest, u, v => by
      intro h
      rcases hu : CoordinatesVector.fromConn (a, b) with _ | u0
      · simp [PolygonalPath.firstNonParallel, hu] at h
      rcases hv : CoordinatesVector.fromConn (b, c) with _ | v0
      · simp [PolygonalPath.firstNonParallel, hu, hv] at h
      by_cases hpar : CoordinatesVector.isParallelTo u0 v0 eps = true
      · have h2 : PolygonalPath.firstNonParallel eps (b :: c :: rest) = some (some (u, v)) := by
          simpa [PolygonalPath.firstNonParallel, hu, hv, hpar] using h
        obtain ⟨t, ht, hu1, hv1⟩ := firstNonParallel_found eps (b :: c :: rest) u v h2
        exact ⟨t, by simp [PolygonalPath.consecutiveTriples, ht], hu1, hv1⟩
      · have heq : u0 = u ∧ v0 = v := by
          simpa [PolygonalPath.firstNonParallel, hu, hv, hpar] using h
        obtain ⟨rfl, rfl⟩ := heq
        exact ⟨(a, b, c), by simp [PolygonalPath.consecutiveTriples], hu, hv⟩

theorem firstNonParallel_no_panic (eps : ℝ) :
    ∀ l : List Coordinates,
      (∀ t ∈ PolygonalPath.consecutiveTriples l,
          (CoordinatesVector.fromConn (t.1, t.2.1)).isSome ∧
            (CoordinatesVector.fromConn (t.2.1, t.2.2)).isSome) →
        PolygonalPath.firstNonParallel eps l ≠ none
  | [], _ => by simp [PolygonalPath.firstNonParallel]
  | [a], _ => by simp [PolygonalPath.firstNonParallel]
  | [a, b], _ => by simp [PolygonalPath.firstNonParallel]
  | a :: b :: c :: rest, h => by
      have hhead := h (a, b, c) (by simp [PolygonalPath.consecutiveTriples])
      obtain ⟨u0, hu⟩ := Option.isSome_iff_exists.mp hhead.1
      obtain ⟨v0, hv⟩ := Option.isSome_iff_exists.mp hhead.2
      by_cases hpar : CoordinatesVector.isParallelTo u0 v0 eps = true
      · have htail : ∀ t ∈ PolygonalPath.consecutiveTriples (b :: c :: rest),
            (CoordinatesVector.fromConn (t.1, t.2.1)).isSome ∧
              (CoordinatesVector.fromConn (t.2.1, t.2.2)).isSome := by
          intro t ht
          exact h t (by simp [PolygonalPath.consecutiveTriples, ht])
        have := firstNonParallel_no_panic eps (b :: c :: rest) htail
        simpa [PolygonalPath.firstNonParallel, hu, hv, hpar] using this
      · simp [PolygonalPath.firstNonParallel, hu, hv, hpar]

/-- C9, amended: applying `reverse_if_normal_is_negative` twice agrees
with applying it once for polygons whose edges are all non-degenerate
and whose consecutive-edge cross products all have the same sign of
z-component (in particular any convex planar polygon traversed in one
direction).  For non-convex polygons whose cross products differ in
sign, a second application can undo the reversal, as the counterexample
shows. -/
theorem c9_reverse_idempotent_when_signs_agree (seq : List Coordinates) (eps : ℝ)
    (hedges : ∀ t ∈ PolygonalPath.consecutiveTriples seq,
      (CoordinatesVector.fromConn (t.1, t.2.1)).isSome ∧
        (CoordinatesVector.fromConn (t.2.1, t.2.2)).isSome)
    (hsigns :
      (∀ t ∈ PolygonalPath.consecutiveTriples seq, ∀ u v,
          CoordinatesVector.fromConn (t.1, t.2.1) = some u →
            CoordinatesVector.fromConn (t.2.1, t.2.2) = some v →
              (CoordinatesVector.cross u v).z ≤ 0) ∨
        (∀ t ∈ PolygonalPath.consecutiveTriples seq, ∀ u v,
          CoordinatesVector.fromConn (t.1, t.2.1) = some u →
            CoordinatesVector.fromConn (t.2.1, t.2.2) = some v →
              0 ≤ (CoordinatesVector.cross u v).z)) :
    (PolygonalPath.reverseIfNormalIsNegative seq eps).bind
        (fun r => PolygonalPath.reverseIfNormalIsNegative r eps) =
      PolygonalPath.reverseIfNormalIsNegative seq eps := by
  by_cases hlen : seq.length < 2
  · simp [PolygonalPath.reverseIfNormalIsNegative, hlen]
  rcases hfp : PolygonalPath.firstNonParallel eps seq with _ | inner
  · simp [PolygonalPath.reverseIfNormalIsNegative, hlen, hfp]
  rcases inner with _ | ⟨u, v⟩
  · simp [PolygonalPath.reverseIfNormalIsNegative, hlen, hfp]
  by_cases hz : (CoordinatesVector.cross u v).z < 0
  · have hfs : PolygonalPath.reverseIfNormalIsNegative seq eps = some seq.reverse := by
      simp [PolygonalPath.reverseIfNormalIsNegative, hlen, hfp, hz]
    rw [hfs]
    obtain ⟨t0, ht0, hu0, hv0⟩ := firstNonParallel_found eps seq u v hfp
    have hNonPos : ∀ t ∈ PolygonalPath.consecutiveTriples seq, ∀ u v,
        CoordinatesVector.fromConn (t.1, t.2.1) = some u →
          CoordinatesVector.fromConn (t.2.1, t.2.2) = some v →
            (CoordinatesVector.cross u v).z ≤ 0 := by
      rcases hsigns with h | h
      · exact h
      · exact absurd (h t0 ht0 u v hu0 hv0) (by linarith)
    have hlen2 : ¬ seq.reverse.length < 2 := by simpa using hlen
    have hedges2 : ∀ t ∈ PolygonalPath.consecutiveTriples seq.reverse,
        (CoordinatesVector.fromConn (t.1, t.2.1)).isSome ∧
          (CoordinatesVector.fromConn (t.2.1, t.2.2)).isSome := by
      intro t ht
      have ht' := triples_reverse ht
      have h1 := (hedges _ ht').1
      have h2 := (hedges _ ht').2
      obtain ⟨w1, hw1⟩ := Option.isSome_iff_exists.mp h1
      obtain ⟨w2, hw2⟩ := Option.isSome_iff_exists.mp h2
      constructor
      · rw [fromConn_flip hw2]
        rfl
      · rw [fromConn_flip hw1]
        rfl
    have hge : 2 ≤ seq.length := Nat.not_lt.mp hlen
    rcases hfp2 : PolygonalPath.firstNonParallel eps seq.reverse with _ | inner2
    · exact absurd hfp2 (firstNonParallel_no_panic eps seq.reverse hedges2)
    rcases inner2 with _ | ⟨u2, v2⟩
    · simp [PolygonalPath.reverseIfNormalIsNegative, hlen2, hfp2, hge]
    · obtain ⟨t2, ht2, hu2, hv2⟩ := firstNonParallel_found eps seq.reverse u2 v2 hfp2
      have ht2' := triples_reverse ht2
      have hfu : CoordinatesVector.fromConn (t2.2.1, t2.1) = some u2.flip := fromConn_flip hu2
      have hfv : CoordinatesVector.fromConn (t2.2.2, t2.2.1) = some v2.flip := fromConn_flip hv2
      have hle := hNonPos _ ht2' v2.flip u2.flip hfv hfu
      have hzz : 0 ≤ (CoordinatesVector.cross u2 v2).z := by
        rw [cross_flip_flip, cross_swap] at hle
        have : -1 * (CoordinatesVector.cross u2 v2).z ≤ 0 := by
          simpa [CoordinatesVector.flip, CoordinatesVector.rescale] using hle
        linarith
      simp [PolygonalPath.reverseIfNormalIsNegative, hlen2, hfp2, not_lt.mpr hzz, hge]
  · simp [PolygonalPath.reverseIfNormalIsNegative, hlen, hfp, hz]

theorem fc_cA_cB : CoordinatesVector.fromConn (cA, cB) = some ⟨0, 1, 0⟩ :=
  fromConn_dir (b := 1) (by norm_num) (by norm_num [fEPS])
    (by norm_num [cA, cB]) (by norm_num [cA, cB]) (by norm_num [cA, cB]) (by norm_num)

theorem fc_cB_cC : CoordinatesVector.fromConn (cB, cC) = some ⟨1, 0, 0⟩ :=
  fromConn_dir (b := 1) (by norm_num) (by norm_num [fEPS])
    (by norm_num [cB, cC]) (by norm_num [cB, cC]) (by norm_num [cB, cC]) (by norm_num)

theorem fc_cC_cD : CoordinatesVector.fromConn (cC, cD) = some ⟨0, -1, 0⟩ :=
  fromConn_dir (b := 1) (by norm_num) (by norm_num [fEPS])
    (by norm_num [cC, cD]) (by norm_num [cC, cD]) (by norm_num [cC, cD]) (by norm_num)

theorem fc_cD_cA : CoordinatesVector.fromConn (cD, cA) = some ⟨-1, 0, 0⟩ :=
  fromConn_dir (b := 1) (by norm_num) (by norm_num [fEPS])
    (by norm_num [cD, cA]) (by norm_num [cD, cA]) (by norm_num [cD, cA]) (by norm_num)

theorem c9_witness :
    (PolygonalPath.reverseIfNormalIsNegative sqSeq (1 / 10)).bind
        (fun r => PolygonalPath.reverseIfNormalIsNegative r (1 / 10)) =
      PolygonalPath.reverseIfNormalIsNegative sqSeq (1 / 10) := by
  refine c9_reverse_idempotent_when_signs_agree sqSeq (1 / 10) ?_ (Or.inl ?_)
  · intro t ht
    simp only [sqSeq, PolygonalPath.consecutiveTriples, List.mem_cons, List.not_mem_nil,
      or_false] at ht
    rcases ht with rfl | rfl | rfl
    · exact ⟨by rw [fc_cA_cB]; rfl, by rw [fc_cB_cC]; rfl⟩
    · exact ⟨by rw [fc_cB_cC]; rfl, by rw [fc_cC_cD]; rfl⟩
    · exact ⟨by rw [fc_cC_cD]; rfl, by rw [fc_cD_cA]; rfl⟩
  · intro t ht u v hu hv
    simp only [sqSeq, PolygonalPath.consecutiveTriples, List.mem_cons, List.not_mem_nil,
      or_false] at ht
    rcases ht with rfl | rfl | rfl
    · rw [fc_cA_cB] at hu
      rw [fc_cB_cC] at hv
      obtain ⟨rfl⟩ := hu
      obtain ⟨rfl⟩ := hv
      norm_num [CoordinatesVector.cross]
    · rw [fc_cB_cC] at hu
      rw [fc_cC_cD] at hv
      obtain ⟨rfl⟩ := hu
      obtain ⟨rfl⟩ := hv
      norm_num [CoordinatesVector.cross]
    · rw [fc_cC_cD] at hu
      rw [fc_cD_cA] at hv
      obtain ⟨rfl⟩ := hu
      obtain ⟨rfl⟩ := hv
      norm_num [CoordinatesVector.cross]

theorem norm_axis_zx : CoordinatesVector.norm ⟨0, 1, 0⟩ = 1 :=
  norm_eval _ 1 (by norm_num) (by norm_num)

theorem parallel_self_z :
    CoordinatesVector.isParallelTo ⟨0, 0, 1⟩ ⟨0, 0, 1⟩ (1 / 10) = true := by
  refine isParallelTo_true ?_
  rw [show CoordinatesVector.cross ⟨0, 0, 1⟩ ⟨0, 0, 1⟩ = ⟨0, 0, 0⟩ by
    simp [CoordinatesVector.cross]]
  rw [norm_eval _ 0 le_rfl (by norm_num)]
  norm_num

theorem parallel_z_x_false :
    CoordinatesVector.isParallelTo ⟨0, 0, 1⟩ ⟨1, 0, 0⟩ (1 / 10) = false := by
  refine isParallelTo_false ?_
  rw [show CoordinatesVector.cross ⟨0, 0, 1⟩ ⟨1, 0, 0⟩ = ⟨0, 1, 0⟩ by
    simp [CoordinatesVector.cross]]
  rw [norm_eval _ 1 (by norm_num) (by norm_num)]
  norm_num

/-! ### Claim C3 -/

/-- C3, counterexample: `match_against` in the code takes no relaxed
flag; on two concrete matchers with non-ε-parallel normals it returns
`none`, while the claimed behaviour with `relaxed` set would return
`self`. -/
theorem c3_counterexample :
    PlaneMatcher.matchAgainst mZ mX = none ∧
      PlaneMatcher.matchAgainstRelaxed mZ mX true = some mZ := by
  constructor
  · simp only [PlaneMatcher.matchAgainst, mZ, mX]
    rw [parallel_z_x_false]
    simp
  · simp [PlaneMatcher.matchAgainstRelaxed, mZ, mX]

/-- C3, amended: `match_against(other)` as written behaves exactly as the
claim's case analysis with `relaxed` fixed to `false`: when both planes
are concrete it returns `self` iff the normals are ε-parallel (never
unconditionally), when exactly one side is concrete that side wins, and
when both are undefined it fails. -/
theorem c3_match_against_is_unrelaxed_spec (a b : PlaneMatcher) :
    PlaneMatcher.matchAgainst a b = PlaneMatcher.matchAgainstRelaxed a b false := by
  unfold PlaneMatcher.matchAgainst PlaneMatcher.matchAgainstRelaxed
  cases a.plane <;> cases b.plane <;> simp

/-! ### Claim C8 -/

/-- C8, amended: whenever `project_angle_between` returns a value, that
value lies in the half-open interval `(0, 2π]` — attaining `2π` and
never `0`, rather than the claimed `[0, 2π)`. -/
theorem c8_angle_in_Ioc (m : PlaneMatcher) (current successor : CoordinatesVector) (theta : ℝ)
    (h : PlaneMatcher.projectAngleBetween m current successor = some theta) :
    theta ∈ Set.Ioc 0 (2 * Real.pi) := by
  unfold PlaneMatcher.projectAngleBetween at h
  rcases hu : m.project current with _ | u
  · rw [hu] at h
    rcases hv : m.project successor with _ | v <;> rw [hv] at h <;> simp at h
  · rw [hu] at h
    rcases hv : m.project successor with _ | v
    · rw [hv] at h
      simp at h
    · rw [hv] at h
      simp only [Option.some.injEq] at h
      subst h
      have harg := Complex.arg_mem_Ioc (⟨u.x * v.x + u.y * v.y, v.y * u.x - v.x * u.y⟩ : ℂ)
      rw [Set.mem_Ioc] at harg
      rw [Set.mem_Ioc]
      unfold PlaneMatcher.atan2
      constructor
      · linarith [harg.1]
      · linarith [harg.2]

theorem c8_eval_straight :
    PlaneMatcher.projectAngleBetween mZ ⟨1, 0, 0⟩ ⟨-1, 0, 0⟩ = some (2 * Real.pi) := by
  have h1 : mZ.project ⟨1, 0, 0⟩ = some ⟨1, 0, 0⟩ := by
    rw [show mZ.project ⟨1, 0, 0⟩ =
      CoordinatesVector.normalize ⟨1, 0, 0⟩ (1 / 10) by
        simp [PlaneMatcher.project, mZ, CoordinatesVector.dot]]
    rw [normalize_eval (norm_eval _ 1 (by norm_num) (by norm_num)) (by norm_num)]
    simp [CoordinatesVector.rescale]
  have h2 : mZ.project ⟨-1, 0, 0⟩ = some ⟨-1, 0, 0⟩ := by
    rw [show mZ.project ⟨-1, 0, 0⟩ =
      CoordinatesVector.normalize ⟨-1, 0, 0⟩ (1 / 10) by
        simp [PlaneMatcher.project, mZ, CoordinatesVector.dot]]
    rw [normalize_eval (norm_eval _ 1 (by norm_num) (by norm_num)) (by norm_num)]
    simp [CoordinatesVector.rescale]
  rw [PlaneMatcher.projectAngleBetween, h1, h2]
  norm_num [atan2_zero_neg_one]
  ring_nf

/-- C8, counterexample: for anti-parallel projected directions the
returned angle is exactly `2π`, which does not lie in the claimed
half-open interval `[0, 2π)`. -/
theorem c8_counterexample :
    PlaneMatcher.projectAngleBetween mZ ⟨1, 0, 0⟩ ⟨-1, 0, 0⟩ = some (2 * Real.pi) ∧
      2 * Real.pi ∉ Set.Ico (0 : ℝ) (2 * Real.pi) := by
  exact ⟨c8_eval_straight, by simp⟩

theorem c8_witness :
    PlaneMatcher.projectAngleBetween mZ ⟨1, 0, 0⟩ ⟨-1, 0, 0⟩ = some (2 * Real.pi) ∧
      2 * Real.pi ∈ Set.Ioc 0 (2 * Real.pi) :=
  ⟨c8_eval_straight, c8_angle_in_Ioc mZ ⟨1, 0, 0⟩ ⟨-1, 0, 0⟩ (2 * Real.pi) c8_eval_straight⟩

/-! ### Claim C10 -/

theorem planeEq_undefined_right (m : PlaneMatcher) (eps : ℝ) :
    PlaneMatcher.planeEq m (PlaneMatcher.undefined eps) = false := by
  unfold PlaneMatcher.planeEq PlaneMatcher.isSameAs PlaneMatcher.undefined
  cases m.plane <;> rfl

/-- C10: `PlaneMatcher` equality (`is_same_as`) is not reflexive on
undefined matchers — `undefined(ε) == undefined(ε)` is `false` — and
consequently a cache lookup performed with an undefined plane never
reports a hit, for any table contents. -/
theorem c10_undefined_never_cached (eps : ℝ) (table : CacheTable)
    (path : Coordinates × Coordinates × Coordinates) :
    PlaneMatcher.planeEq (PlaneMatcher.undefined eps) (PlaneMatcher.undefined eps) = false ∧
      cacheContains table path (PlaneMatcher.undefined eps) = false := by
  refine ⟨planeEq_undefined_right _ _, ?_⟩
  unfold cacheContains
  rcases alookup table path with _ | matchers
  · rfl
  · simp [planeEq_undefined_right]

theorem onPlane_eval {incident adjacent : Coordinates × Coordinates}
    {u v : CoordinatesVector} (hinc : CoordinatesVector.fromConn incident = some u)
    (hadj : CoordinatesVector.fromConn adjacent = some v) (m : PlaneMatcher) :
    ProjectedIntersection.onPlane m incident adjacent =
      some ⟨adjacent, m.projectAngleBetween u v⟩ := by
  unfold ProjectedIntersection.onPlane
  simp [hinc, hadj]

theorem onPlane_panic {incident adjacent : Coordinates × Coordinates}
    (h : CoordinatesVector.fromConn incident = none ∨
      CoordinatesVector.fromConn adjacent = none) (m : PlaneMatcher) :
    ProjectedIntersection.onPlane m incident adjacent = none := by
  unfold ProjectedIntersection.onPlane
  rcases h with h | h
  · simp [h]
  · rcases hinc : CoordinatesVector.fromConn incident with _ | u <;> simp [h]

theorem registerAux_eval {incident adjacent : Coordinates × Coordinates}
    {u v : CoordinatesVector} (hinc : CoordinatesVector.fromConn incident = some u)
    (hadj : CoordinatesVector.fromConn adjacent = some v) (plane : PlaneMatcher) :
    ∀ ms : List (PlaneMatcher × List ProjectedIntersection),
      registerAux plane incident adjacent ms =
        some
          (ms.map fun e =>
            if PlaneMatcher.planeEq e.1 plane then
              (e.1, e.2 ++ [⟨adjacent, e.1.projectAngleBetween u v⟩])
            else e,
           ms.any fun e => PlaneMatcher.planeEq e.1 plane)
  | [] => by simp [registerAux]
  | (matcher, successors) :: rest => by
      have hrest := registerAux_eval hinc hadj plane rest
      by_cases hm : PlaneMatcher.planeEq matcher plane = true
      · simp only [registerAux, hm, if_true, onPlane_eval hinc hadj, hrest]
        simp [hm]
      · simp only [registerAux, hm, if_false, hrest]
        simp [hm]

theorem registerAux_panic {incident adjacent : Coordinates × Coordinates}
    (h : CoordinatesVector.fromConn incident = none ∨
      CoordinatesVector.fromConn adjacent = none) (plane : PlaneMatcher) :
    ∀ ms : List (PlaneMatcher × List ProjectedIntersection),
      registerAux plane incident adjacent ms =
        if ms.any (fun e => PlaneMatcher.planeEq e.1 plane) then none else some (ms, false)
  | [] => by simp [registerAux]
  | (matcher, successors) :: rest => by
      have hrest := registerAux_panic h plane rest
      by_cases hm : PlaneMatcher.planeEq matcher plane = true
      · simp only [registerAux, hm, if_true, onPlane_panic h]
        simp [hm]
      · simp only [registerAux, hm, if_false, hrest]
        by_cases hany : (rest.any fun e => PlaneMatcher.planeEq e.1 plane) = true
        · simp [hany, hm]
        · simp only [hany, if_false]
          simp [hm, hany]

/-! ### Claim C1 -/

/-- C1, amended: when the plane with the adjacent connection is defined,
the successor is appended to EVERY already-registered bucket whose
matcher is ε-parallel to that plane — not to the single best one by
`coplanarity_with`, which does not exist in the code — and a fresh
bucket is registered exactly when no existing one matched; a degenerate
incident or adjacent connection panics. -/
theorem c1_register_appends_to_every_matching_plane
    (ms : List (PlaneMatcher × List ProjectedIntersection)) (plane : PlaneMatcher)
    (incident adjacent : Coordinates × Coordinates) :
    (∀ u v, CoordinatesVector.fromConn incident = some u →
      CoordinatesVector.fromConn adjacent = some v →
        registerSuccessor ms plane incident adjacent =
          some
            (if ms.any (fun e => PlaneMatcher.planeEq e.1 plane) then
              ms.map fun e =>
                if PlaneMatcher.planeEq e.1 plane then
                  (e.1, e.2 ++ [⟨adjacent, e.1.projectAngleBetween u v⟩])
                else e
            else ms ++ [(plane, [⟨adjacent, plane.projectAngleBetween u v⟩])])) ∧
      ((CoordinatesVector.fromConn incident = none ∨
          CoordinatesVector.fromConn adjacent = none) →
        registerSuccessor ms plane incident adjacent = none) := by
  constructor
  · intro u v hinc hadj
    unfold registerSuccessor
    rw [registerAux_eval hinc hadj plane ms]
    by_cases hany : (ms.any fun e => PlaneMatcher.planeEq e.1 plane) = true
    · simp [hany]
    · simp only [hany, if_false]
      have hall := List.any_eq_false.mp (Bool.not_eq_true _ ▸ hany)
      have hid : (ms.map fun e =>
          if PlaneMatcher.planeEq e.1 plane then
            (e.1, e.2 ++ [(⟨adjacent, e.1.projectAngleBetween u v⟩ : ProjectedIntersection)])
          else e) = ms := by
        have := List.map_congr_left (l := ms)
          (f := fun e =>
            if PlaneMatcher.planeEq e.1 plane then
              (e.1, e.2 ++ [(⟨adjacent, e.1.projectAngleBetween u v⟩ : ProjectedIntersection)])
            else e)
          (g := id)
          (fun e he => by simp [hall e he])
        rw [this, List.map_id]
      simp [hany, onPlane_eval hinc hadj, hid]
  · intro h
    unfold registerSuccessor
    rw [registerAux_panic h plane ms]
    by_cases hany : (ms.any fun e => PlaneMatcher.planeEq e.1 plane) = true
    · simp [hany]
    · simp only [hany, if_false]
      simp [onPlane_panic h]

theorem planeEq_m1_p : PlaneMatcher.planeEq m1cx pcx = true := by
  unfold PlaneMatcher.planeEq PlaneMatcher.isSameAs m1cx pcx
  refine isParallelTo_true ?_
  rw [show CoordinatesVector.cross ⟨0, 0, 1⟩ ⟨3 / 5, 0, 4 / 5⟩ = ⟨0, 3 / 5, 0⟩ by
    simp [CoordinatesVector.cross]]
  rw [norm_eval _ (3 / 5) (by norm_num) (by norm_num)]
  norm_num

theorem planeEq_m2_p : PlaneMatcher.planeEq m2cx pcx = true := by
  unfold PlaneMatcher.planeEq PlaneMatcher.isSameAs m2cx pcx
  refine isParallelTo_true ?_
  rw [show CoordinatesVector.cross ⟨4 / 5, 0, 3 / 5⟩ ⟨3 / 5, 0, 4 / 5⟩ = ⟨0, -(7 / 25), 0⟩ by
    simp [CoordinatesVector.cross]; norm_num]
  rw [norm_eval _ (7 / 25) (by norm_num) (by norm_num)]
  norm_num

theorem planeEq_m1_m2 : PlaneMatcher.planeEq m1cx m2cx = false := by
  unfold PlaneMatcher.planeEq PlaneMatcher.isSameAs m1cx m2cx
  refine isParallelTo_false ?_
  rw [show CoordinatesVector.cross ⟨0, 0, 1⟩ ⟨4 / 5, 0, 3 / 5⟩ = ⟨0, 4 / 5, 0⟩ by
    simp [CoordinatesVector.cross]]
  rw [norm_eval _ (4 / 5) (by norm_num) (by norm_num)]
  norm_num

/-- C1, counterexample: with two registered planes that are both within
ε of the new plane (but not of each other), the code appends the
successor to BOTH buckets — their successor lists both grow to length
one — whereas the claim requires appending to exactly one (the best
match). -/
theorem c1_counterexample :
    PlaneMatcher.planeEq m1cx pcx = true ∧ PlaneMatcher.planeEq m2cx pcx = true ∧
      PlaneMatcher.planeEq m1cx m2cx = false ∧
      (registerSuccessor [(m1cx, []), (m2cx, [])] pcx (cA, cB) (cB, cC)).map
          (fun ms => ms.map fun e => e.2.length) = some [1, 1] := by
  refine ⟨planeEq_m1_p, planeEq_m2_p, planeEq_m1_m2, ?_⟩
  unfold registerSuccessor
  rw [registerAux_eval fc_cA_cB fc_cB_cC pcx]
  simp [planeEq_m1_p, planeEq_m2_p]

theorem c1_witness :
    registerSuccessor [(m1cx, []), (m2cx, [])] pcx (cA, cB) (cB, cC) =
      some
        [(m1cx, [⟨(cB, cC), m1cx.projectAngleBetween ⟨0, 1, 0⟩ ⟨1, 0, 0⟩⟩]),
         (m2cx, [⟨(cB, cC), m2cx.projectAngleBetween ⟨0, 1, 0⟩ ⟨1, 0, 0⟩⟩])] := by
  have h := (c1_register_appends_to_every_matching_plane [(m1cx, []), (m2cx, [])] pcx
    (cA, cB) (cB, cC)).1 ⟨0, 1, 0⟩ ⟨1, 0, 0⟩ fc_cA_cB fc_cB_cC
  rw [h]
  simp [planeEq_m1_p, planeEq_m2_p]

namespace Bits

theorem rat_eq_of_parts {q r : ℚ} (hden : q.den = r.den)
    (habs : q.num.natAbs = r.num.natAbs) (hsign : q.num < 0 ↔ r.num < 0) : q = r := by
  have hnum : q.num = r.num := by
    rcases Int.natAbs_eq_natAbs_iff.mp habs with h | h
    · exact h
    · omega
  exact Rat.ext hnum hden

theorem toBits_injective : Function.Injective toBits := by
  intro a b h
  match a, b with
  | .nan, .nan => rfl
  | .negZero, .negZero => rfl
  | .nan, .negZero => exact absurd h (by decide)
  | .negZero, .nan => exact absurd h (by decide)
  | .nan, .num q =>
      rw [show toBits .nan = 0 from rfl] at h
      simp only [toBits] at h
      split_ifs at h <;> omega
  | .num q, .nan =>
      rw [show toBits .nan = 0 from rfl] at h
      simp only [toBits] at h
      split_ifs at h <;> omega
  | .negZero, .num q =>
      rw [show toBits .negZero = 1 from rfl] at h
      simp only [toBits] at h
      split_ifs at h <;> omega
  | .num q, .negZero =>
      rw [show toBits .negZero = 1 from rfl] at h
      simp only [toBits] at h
      split_ifs at h <;> omega
  | .num q, .num r =>
      simp only [toBits] at h
      by_cases h1 : q.num < 0 <;> by_cases h2 : r.num < 0
      · rw [if_pos h1, if_pos h2] at h
        have hpair : Nat.pair q.den q.num.natAbs = Nat.pair r.den r.num.natAbs := by omega
        have hp := Nat.pair_eq_pair.mp hpair
        exact congrArg F64.num (rat_eq_of_parts hp.1 hp.2 (by constructor <;> intro <;> assumption))
      · rw [if_pos h1, if_neg h2] at h
        exfalso
        omega
      · rw [if_neg h1, if_pos h2] at h
        exfalso
        omega
      · rw [if_neg h1, if_neg h2] at h
        have hpair : Nat.pair q.den q.num.natAbs = Nat.pair r.den r.num.natAbs := by omega
        have hp := Nat.pair_eq_pair.mp hpair
        exact congrArg F64.num
          (rat_eq_of_parts hp.1 hp.2 (by constructor <;> intro <;> exact absurd ‹_› ‹_›))

end Bits

/-! ### Claim C6 -/

/-- C6, counterexample: the points `(0.0, 0.0, 0.0)` and
`(-0.0, 0.0, 0.0)` compare equal under the `PartialEq` implementation
(IEEE `==`), yet their `(x, y, z)` bit representations differ and the
word streams fed to the hasher differ, so equality is not bit-exact and
two equal points hash differently. -/
theorem c6_counterexample :
    Bits.coordEq (Bits.F64.num 0, Bits.F64.num 0, Bits.F64.num 0)
        (Bits.F64.negZero, Bits.F64.num 0, Bits.F64.num 0) = true ∧
      (Bits.F64.num 0, Bits.F64.num 0, Bits.F64.num 0) ≠
        ((Bits.F64.negZero, Bits.F64.num 0, Bits.F64.num 0) : Bits.Coords) ∧
      Bits.hashStream (Bits.F64.num 0, Bits.F64.num 0, Bits.F64.num 0) ≠
        Bits.hashStream (Bits.F64.negZero, Bits.F64.num 0, Bits.F64.num 0) := by
  refine ⟨by decide, ?_, by decide⟩
  intro h
  have := congrArg Prod.fst h
  simp at this

/-- C6, amended: on points whose components are ordinary numeric values
(no `-0.0`, no NaN), equality, the total ordering, and the hash input
stream all distinguish points exactly by bit-identity: `==` holds iff
the points (hence their bit patterns) coincide, `cmp` returns `Equal`
iff they coincide, and equal points then write identical words to the
hasher.  On `±0.0` equality is coarser than bit-identity (the
counterexample), and NaN components break reflexivity. -/
theorem c6_bit_exact_on_regular_floats (p q : Bits.Coords)
    (hp : Bits.regular p = true) (hq : Bits.regular q = true) :
    (Bits.coordEq p q = true ↔ p = q) ∧
      (Bits.coordEq p q = true ↔ Bits.hashStream p = Bits.hashStream q) ∧
      (Bits.coordCmp p q = Ordering.eq ↔ p = q) := by
  obtain ⟨x1, y1, z1⟩ := p
  obtain ⟨x2, y2, z2⟩ := q
  simp only [Bits.regular, Bits.isNum, Bool.and_eq_true] at hp hq
  rcases x1 with a1 | _ | _ <;> try simp at hp
  rcases y1 with b1 | _ | _ <;> try simp at hp
  rcases z1 with c1 | _ | _ <;> try simp at hp
  rcases x2 with a2 | _ | _ <;> try simp at hq
  rcases y2 with b2 | _ | _ <;> try simp at hq
  rcases z2 with c2 | _ | _ <;> try simp at hq
  refine ⟨?_, ?_, ?_⟩
  · simp only [Bits.coordEq, Bits.feq, Bool.and_eq_true, beq_iff_eq, Prod.mk.injEq,
      Bits.F64.num.injEq]
    tauto
  · constructor
    · intro h
      simp only [Bits.coordEq, Bits.feq, Bool.and_eq_true, beq_iff_eq] at h
      simp [Bits.hashStream, h.1.1, h.1.2, h.2]
    · intro h
      simp only [Bits.hashStream, Prod.mk.injEq] at h
      have h1 := Bits.toBits_injective h.1
      have h2 := Bits.toBits_injective h.2.1
      have h3 := Bits.toBits_injective h.2.2
      simp only [Bits.F64.num.injEq] at h1 h2 h3
      simp [Bits.coordEq, Bits.feq, h1, h2, h3]
  · constructor
    · intro h
      simp only [Bits.coordCmp, Bits.flt] at h
      split_ifs at h with h1 h2 h3 h4 h5 h6
      simp only [decide_eq_true_eq] at h1 h2 h3 h4 h5 h6
      have ha : a1 = a2 := le_antisymm (not_lt.mp h2) (not_lt.mp h1)
      have hb : b1 = b2 := le_antisymm (not_lt.mp h4) (not_lt.mp h3)
      have hc : c1 = c2 := le_antisymm (not_lt.mp h6) (not_lt.mp h5)
      simp [Prod.ext_iff, ha, hb, hc]
    · intro h
      simp only [Prod.mk.injEq, Bits.F64.num.injEq] at h
      obtain ⟨h1, h2, h3⟩ := h
      subst h1
      subst h2
      subst h3
      simp [Bits.coordCmp, Bits.flt]

theorem c6_witness :
    (Bits.coordEq (Bits.F64.num 1, Bits.F64.num 2, Bits.F64.num 3)
          (Bits.F64.num 1, Bits.F64.num 2, Bits.F64.num 4) = true ↔
        (Bits.F64.num 1, Bits.F64.num 2, Bits.F64.num 3) =
          ((Bits.F64.num 1, Bits.F64.num 2, Bits.F64.num 4) : Bits.Coords)) ∧
      (Bits.coordEq (Bits.F64.num 1, Bits.F64.num 2, Bits.F64.num 3)
            (Bits.F64.num 1, Bits.F64.num 2, Bits.F64.num 4) = true ↔
          Bits.hashStream (Bits.F64.num 1, Bits.F64.num 2, Bits.F64.num 3) =
            Bits.hashStream (Bits.F64.num 1, Bits.F64.num 2, Bits.F64.num 4)) ∧
      (Bits.coordCmp (Bits.F64.num 1, Bits.F64.num 2, Bits.F64.num 3)
            (Bits.F64.num 1, Bits.F64.num 2, Bits.F64.num 4) = Ordering.eq ↔
        (Bits.F64.num 1, Bits.F64.num 2, Bits.F64.num 3) =
          ((Bits.F64.num 1, Bits.F64.num 2, Bits.F64.num 4) : Bits.Coords)) :=
  c6_bit_exact_on_regular_floats
    (Bits.F64.num 1, Bits.F64.num 2, Bits.F64.num 3)
    (Bits.F64.num 1, Bits.F64.num 2, Bits.F64.num 4) (by decide) (by decide)

namespace Prune
variable {V : Type} [DecidableEq V]

theorem lookupA_mem :
    ∀ (adj : List (V × List V)) (v : V) (ns : List V),
      lookupA adj v = some ns → (v, ns) ∈ adj
  | [], v, ns => by simp [lookupA]
  | (k, ms) :: rest, v, ns => by
      intro h
      by_cases hv : v = k
      · subst hv
        simp [lookupA] at h
        simp [h]
      · simp only [lookupA, if_neg hv] at h
        exact List.mem_cons_of_mem _ (lookupA_mem rest v ns h)

theorem nodupKeys_cons {k : V} {ms : List V} {rest : List (V × List V)}
    (h : NodupKeys ((k, ms) :: rest)) :
    (k ∉ rest.map fun e => e.1) ∧ NodupKeys rest := by
  unfold NodupKeys at h ⊢
  simpa [List.nodup_cons] using h

theorem mem_lookupA :
    ∀ (adj : List (V × List V)) (v : V) (ns : List V),
      NodupKeys adj → (v, ns) ∈ adj → lookupA adj v = some ns
  | [], v, ns => by simp
  | (k, ms) :: rest, v, ns => by
      intro hnd hmem
      rcases List.mem_cons.mp hmem with heq | hmem2
      · obtain ⟨rfl, rfl⟩ : v = k ∧ ns = ms := by simpa [Prod.ext_iff] using heq
        simp [lookupA]
      · have hk : v ≠ k := by
          rintro rfl
          exact (nodupKeys_cons hnd).1 (List.mem_map.mpr ⟨(v, ns), hmem2, rfl⟩)
        simp only [lookupA, if_neg hk]
        exact mem_lookupA rest v ns (nodupKeys_cons hnd).2 hmem2

theorem lookupA_of_mem_keys :
    ∀ (adj : List (V × List V)) (v : V), (v ∈ adj.map fun e => e.1) →
      ∃ ns, lookupA adj v = some ns
  | [], v => by simp
  | (k, ms) :: rest, v => by
      intro hv
      by_cases hk : v = k
      · exact ⟨ms, by simp [lookupA, hk]⟩
      · simp only [List.map_cons, List.mem_cons] at hv
        rcases hv with h | h
        · exact absurd h hk
        · obtain ⟨ns, hns⟩ := lookupA_of_mem_keys rest v h
          exact ⟨ns, by simpa [lookupA, hk] using hns⟩

theorem containsKey_iff (adj : List (V × List V)) (v : V) :
    containsKey adj v = true ↔ v ∈ adj.map fun e => e.1 := by
  unfold containsKey
  rw [Option.isSome_iff_exists]
  constructor
  · rintro ⟨ns, hns⟩
    exact List.mem_map.mpr ⟨(v, ns), lookupA_mem adj v ns hns, rfl⟩
  · exact lookupA_of_mem_keys adj v

theorem keys_modifyEntry :
    ∀ (adj : List (V × List V)) (u : V) (f : List V → List V),
      ((modifyEntry adj u f).map fun e => e.1) = adj.map fun e => e.1
  | [], _, _ => rfl
  | (k, ms) :: rest, u, f => by
      by_cases hu : u = k
      · simp [modifyEntry, hu]
      · simp [modifyEntry, hu, keys_modifyEntry rest u f]

theorem nodup_modifyEntry {adj : List (V × List V)} {u : V} {f : List V → List V}
    (h : NodupKeys adj) : NodupKeys (modifyEntry adj u f) := by
  unfold NodupKeys at h ⊢
  rw [keys_modifyEntry]
  exact h

theorem mem_modifyEntry :
    ∀ (adj : List (V × List V)) (u : V) (f : List V → List V)
      (e : V × List V), NodupKeys adj → e ∈ modifyEntry adj u f →
        (e ∈ adj ∧ e.1 ≠ u) ∨ (∃ ns, lookupA adj u = some ns ∧ e = (u, f ns))
  | [], u, f, e => by simp [modifyEntry]
  | (k, ms) :: rest, u, f, e => by
      intro hnd he
      by_cases hu : u = k
      · subst hu
        simp only [modifyEntry, if_pos rfl] at he
        rcases List.mem_cons.mp he with rfl | he2
        · exact Or.inr ⟨ms, by simp [lookupA], rfl⟩
        · refine Or.inl ⟨List.mem_cons_of_mem _ he2, ?_⟩
          rintro hfst
          exact (nodupKeys_cons hnd).1 (hfst ▸ List.mem_map.mpr ⟨e, he2, rfl⟩)
      · simp only [modifyEntry, if_neg hu] at he
        rcases List.mem_cons.mp he with rfl | he2
        · exact Or.inl ⟨List.mem_cons_self _ _, fun hf => hu hf.symm⟩
        · rcases mem_modifyEntry rest u f e (nodupKeys_cons hnd).2 he2 with ⟨hm, hne⟩ | ⟨ns, hns, rfl⟩
          · exact Or.inl ⟨List.mem_cons_of_mem _ hm, hne⟩
          · exact Or.inr ⟨ns, by simp [lookupA, hu, hns], rfl⟩

theorem mem_eraseKey :
    ∀ (adj : List (V × List V)) (u : V) (e : V × List V),
      NodupKeys adj → e ∈ eraseKey adj u → e ∈ adj ∧ e.1 ≠ u
  | [], u, e => by simp [eraseKey]
  | (k, ms) :: rest, u, e => by
      intro hnd he
      by_cases hu : u = k
      · subst hu
        simp only [eraseKey, if_pos rfl] at he
        refine ⟨List.mem_cons_of_mem _ he, ?_⟩
        rintro hfst
        exact (nodupKeys_cons hnd).1 (hfst ▸ List.mem_map.mpr ⟨e, he, rfl⟩)
      · simp only [eraseKey, if_neg hu] at he
        rcases List.mem_cons.mp he with rfl | he2
        · exact ⟨List.mem_cons_self _ _, fun hf => hu hf.symm⟩
        · obtain ⟨hm, hne⟩ := mem_eraseKey rest u e (nodupKeys_cons hnd).2 he2
          exact ⟨List.mem_cons_of_mem _ hm, hne⟩

theorem keys_eraseKey_sublist :
    ∀ (adj : List (V × List V)) (u : V),
      List.Sublist ((eraseKey adj u).map fun e => e.1) (adj.map fun e => e.1)
  | [], u => by simp [eraseKey]
  | (k, ms) :: rest, u => by
      by_cases hu : u = k
      · simp only [eraseKey, if_pos hu, List.map_cons]
        exact List.sublist_cons_self _ _
      · simp only [eraseKey, if_neg hu, List.map_cons]
        exact List.Sublist.cons₂ k (keys_eraseKey_sublist rest u)

theorem nodup_eraseKey {adj : List (V × List V)} {u : V} (h : NodupKeys adj) :
    NodupKeys (eraseKey adj u) :=
  List.Nodup.sublist (keys_eraseKey_sublist adj u) h

theorem length_eraseKey_le :
    ∀ (adj : List (V × List V)) (u : V), (eraseKey adj u).length ≤ adj.length
  | [], u => by simp [eraseKey]
  | (k, ms) :: rest, u => by
      by_cases hu : u = k
      · simp only [eraseKey, if_pos hu]
        simp
      · simp only [eraseKey, if_neg hu, List.length_cons]
        exact Nat.succ_le_succ (length_eraseKey_le rest u)

theorem length_eraseKey_lt :
    ∀ (adj : List (V × List V)) (u : V), containsKey adj u = true →
      (eraseKey adj u).length < adj.length
  | [], u => by simp [containsKey, lookupA]
  | (k, ms) :: rest, u => by
      intro h
      by_cases hu : u = k
      · simp only [eraseKey, if_pos hu, List.length_cons]
        omega
      · simp only [eraseKey, if_neg hu, List.length_cons]
        have : containsKey rest u = true := by
          simpa [containsKey, lookupA, hu] using h
        exact Nat.succ_lt_succ (length_eraseKey_lt rest u this)

theorem length_modifyEntry :
    ∀ (adj : List (V × List V)) (u : V) (f : List V → List V),
      (modifyEntry adj u f).length = adj.length
  | [], _, _ => rfl
  | (k, ms) :: rest, u, f => by
      by_cases hu : u = k
      · simp [modifyEntry, hu]
      · simp [modifyEntry, hu, length_modifyEntry rest u f]

theorem mem_insertNb_self (ns : List V) (v : V) : v ∈ insertNb ns v := by
  unfold insertNb
  by_cases h : v ∈ ns <;> simp [h]

theorem subset_insertNb (ns : List V) (v : V) : ns ⊆ insertNb ns v := by
  unfold insertNb
  by_cases h : v ∈ ns <;> intro x hx <;> simp [h, hx]

theorem insertNb_ne_nil (ns : List V) (v : V) : insertNb ns v ≠ [] := by
  unfold insertNb
  by_cases h : v ∈ ns
  · simp only [if_pos h]
    rintro rfl
    simp at h
  · simp [h]

theorem pruneLeaf_nodup {adj : List (V × List V)} {upd : List V} {leaf : V}
    (hnd : NodupKeys adj) : NodupKeys (pruneLeaf adj upd leaf).1 := by
  rcases h1 : lookupA adj leaf with _ | ns <;> simp only [pruneLeaf, h1]
  · exact hnd
  · rcases h2 : ns.head? with _ | adjacent <;> simp only [h2]
    · exact nodup_eraseKey hnd
    · exact nodup_eraseKey (nodup_modifyEntry hnd)

theorem pruneLeaf_upd_subset (adj : List (V × List V)) (upd : List V) (leaf : V) :
    upd ⊆ (pruneLeaf adj upd leaf).2 := by
  rcases h1 : lookupA adj leaf with _ | ns <;> simp only [pruneLeaf, h1]
  · exact fun x hx => hx
  · rcases h2 : ns.head? with _ | adjacent <;> simp only [h2]
    · exact fun x hx => hx
    · by_cases hc : ((lookupA adj adjacent).getD []).length ≤ 2 <;> simp only [hc, if_pos, if_neg,
        if_true, if_false]
      · exact subset_insertNb upd adjacent
      · exact fun x hx => hx

theorem pruneLeaf_length_le (adj : List (V × List V)) (upd : List V) (leaf : V) :
    (pruneLeaf adj upd leaf).1.length ≤ adj.length := by
  rcases h1 : lookupA adj leaf with _ | ns <;> simp only [pruneLeaf, h1]
  · exact le_rfl
  · rcases h2 : ns.head? with _ | adjacent <;> simp only [h2]
    · exact length_eraseKey_le adj leaf
    · exact le_trans (length_eraseKey_le _ leaf) (le_of_eq (length_modifyEntry adj adjacent _))

theorem pruneLeaf_length_lt (adj : List (V × List V)) (upd : List V) (leaf : V)
    (h : containsKey adj leaf = true) : (pruneLeaf adj upd leaf).1.length < adj.length := by
  rcases h1 : lookupA adj leaf with _ | ns
  · rw [containsKey, h1] at h
    simp at h
  · simp only [pruneLeaf, h1]
    rcases h2 : ns.head? with _ | adjacent <;> simp only [h2]
    · exact length_eraseKey_lt adj leaf h
    · have hc : containsKey (modifyEntry adj adjacent fun ms => ms.erase leaf) leaf = true := by
        rw [containsKey_iff, keys_modifyEntry]
        exact (containsKey_iff adj leaf).mp h
      calc (eraseKey (modifyEntry adj adjacent fun ms => ms.erase leaf) leaf).length
          < (modifyEntry adj adjacent fun ms => ms.erase leaf).length :=
            length_eraseKey_lt _ leaf hc
        _ = adj.length := length_modifyEntry adj adjacent _

theorem pruneLeaf_id (adj : List (V × List V)) (upd : List V) (leaf : V)
    (h : containsKey adj leaf = false) : pruneLeaf adj upd leaf = (adj, upd) := by
  have hnone : lookupA adj leaf = none := by
    rcases hl : lookupA adj leaf with _ | ns
    · rfl
    · rw [containsKey, hl] at h
      simp at h
  simp [pruneLeaf, hnone]

theorem pruneLeaf_inv (adj : List (V × List V)) (upd : List V) (leaf : V) (rest : List V)
    (hnd : NodupKeys adj) (hinv : Inv adj ((leaf :: rest) ++ upd)) :
    Inv (pruneLeaf adj upd leaf).1 (rest ++ (pruneLeaf adj upd leaf).2) := by
  rcases h1 : lookupA adj leaf with _ | ns <;> simp only [pruneLeaf, h1]
  · intro e he hlen
    have hmem := hinv e he hlen
    have hne : e.1 ≠ leaf := by
      rintro rfl
      rw [mem_lookupA adj e.1 e.2 hnd (by simpa using he)] at h1
      simp at h1
    simpa [hne] using hmem
  · rcases h2 : ns.head? with _ | adjacent <;> simp only [h2]
    · intro e he hlen
      obtain ⟨hm, hne⟩ := mem_eraseKey adj leaf e hnd he
      have hmem := hinv e hm hlen
      simpa [hne] using hmem
    · intro e he hlen
      have hnd2 : NodupKeys (modifyEntry adj adjacent fun ms => ms.erase leaf) :=
        nodup_modifyEntry hnd
      obtain ⟨hm2, hne⟩ := mem_eraseKey _ leaf e hnd2 he
      rcases mem_modifyEntry adj adjacent _ e hnd hm2 with ⟨hm, hnadj⟩ | ⟨ms, hlk, heq⟩
      · have hmem := hinv e hm hlen
        simp only [List.cons_append, List.mem_cons, List.mem_append] at hmem
        rcases hmem with heq2 | hmem3 | hmem2
        · exact absurd heq2 hne
        · exact List.mem_append_left _ hmem3
        · refine List.mem_append_right _ ?_
          by_cases hc : ((lookupA adj adjacent).getD []).length ≤ 2 <;>
            simp only [hc, if_true, if_false, if_pos, if_neg]
          · exact subset_insertNb upd adjacent hmem2
          · exact hmem2
      · subst heq
        have hlen2 : (ms.erase leaf).length ≤ 1 := hlen
        have hms : ms.length ≤ 2 := by
          by_cases hin : leaf ∈ ms
          · have := List.length_erase_of_mem hin
            omega
          · rw [List.erase_of_not_mem hin] at hlen2
            omega
        have hc : ((lookupA adj adjacent).getD []).length ≤ 2 := by
          rw [hlk]
          simpa using hms
        refine List.mem_append_right _ ?_
        simp only [hc, if_true, if_pos]
        exact mem_insertNb_self upd adjacent

theorem roundAux_inv :
    ∀ (leaves : List V) (adj : List (V × List V)) (upd : List V),
      NodupKeys adj → Inv adj (leaves ++ upd) →
        NodupKeys ((leaves.foldl (fun st leaf => pruneLeaf st.1 st.2 leaf) (adj, upd)).1) ∧
          Inv ((leaves.foldl (fun st leaf => pruneLeaf st.1 st.2 leaf) (adj, upd)).1)
            ((leaves.foldl (fun st leaf => pruneLeaf st.1 st.2 leaf) (adj, upd)).2)
  | [], adj, upd => by
      intro hnd hinv
      simpa using ⟨hnd, hinv⟩
  | leaf :: rest, adj, upd => by
      intro hnd hinv
      simp only [List.foldl_cons]
      exact roundAux_inv rest (pruneLeaf adj upd leaf).1 (pruneLeaf adj upd leaf).2
        (pruneLeaf_nodup hnd) (pruneLeaf_inv adj upd leaf rest hnd (by simpa using hinv))

theorem roundAux_length_le :
    ∀ (leaves : List V) (adj : List (V × List V)) (upd : List V),
      ((leaves.foldl (fun st leaf => pruneLeaf st.1 st.2 leaf) (adj, upd)).1).length ≤ adj.length
  | [], adj, upd => le_rfl
  | leaf :: rest, adj, upd => by
      simp only [List.foldl_cons]
      exact le_trans
        (roundAux_length_le rest (pruneLeaf adj upd leaf).1 (pruneLeaf adj upd leaf).2)
        (pruneLeaf_length_le adj upd leaf)

theorem roundAux_id :
    ∀ (leaves : List V) (adj : List (V × List V)) (upd : List V),
      (∀ l ∈ leaves, containsKey adj l = false) →
        leaves.foldl (fun st leaf => pruneLeaf st.1 st.2 leaf) (adj, upd) = (adj, upd)
  | [], adj, upd => by simp
  | leaf :: rest, adj, upd => by
      intro h
      simp only [List.foldl_cons]
      rw [pruneLeaf_id adj upd leaf (h leaf (by simp))]
      exact roundAux_id rest adj upd fun l hl => h l (by simp [hl])

theorem roundAux_length_lt :
    ∀ (leaves : List V) (adj : List (V × List V)) (upd : List V),
      (∃ l ∈ leaves, containsKey adj l = true) →
        ((leaves.foldl (fun st leaf => pruneLeaf st.1 st.2 leaf) (adj, upd)).1).length <
          adj.length
  | [], adj, upd => by simp
  | leaf :: rest, adj, upd => by
      rintro ⟨l, hl, hc⟩
      simp only [List.foldl_cons]
      by_cases hcl : containsKey adj leaf = true
      · exact lt_of_le_of_lt
          (roundAux_length_le rest (pruneLeaf adj upd leaf).1 (pruneLeaf adj upd leaf).2)
          (pruneLeaf_length_lt adj upd leaf hcl)
      · have hne : l ≠ leaf := by
          rintro rfl
          exact hcl hc
        have hlr : l ∈ rest := by
          rcases List.mem_cons.mp hl with rfl | h
          · exact absurd rfl hne
          · exact h
        rw [pruneLeaf_id adj upd leaf (by simpa using hcl)]
        exact roundAux_length_lt rest adj upd ⟨l, hlr, hc⟩

theorem pruneLoop_nil {fuel : ℕ} (leaves : List V) (hfuel : 2 ≤ fuel) :
    pruneLoop fuel ([] : List (V × List V)) leaves = [] := by
  obtain ⟨f, rfl⟩ : ∃ f, fuel = f + 1 := ⟨fuel - 1, by omega⟩
  by_cases hleaves : leaves = []
  · simp [pruneLoop, hleaves]
  · simp only [pruneLoop, if_neg hleaves]
    rw [show pruneRound ([] : List (V × List V)) leaves = ([], []) from
      roundAux_id leaves [] [] fun l _ => by simp [containsKey, lookupA]]
    obtain ⟨g, rfl⟩ : ∃ g, f = g + 1 := ⟨f - 1, by omega⟩
    simp [pruneLoop]

theorem pruneLoop_ok :
    ∀ (n fuel : ℕ) (adj : List (V × List V)) (leaves : List V),
      NodupKeys adj → Inv adj leaves → adj.length ≤ n → n + 2 ≤ fuel →
        ∀ (v : V) (ns : List V), lookupA (pruneLoop fuel adj leaves) v = some ns →
          2 ≤ ns.length := by
  intro n
  induction n with
  | zero =>
      intro fuel adj leaves hnd hinv hlen hfuel v ns h
      have hadj : adj = [] := List.length_eq_zero.mp (Nat.le_antisymm hlen (Nat.zero_le _))
      subst hadj
      rw [pruneLoop_nil leaves (by omega)] at h
      simp [lookupA] at h
  | succ n ih =>
      intro fuel adj leaves hnd hinv hlen hfuel v ns h
      obtain ⟨f, rfl⟩ : ∃ f, fuel = f + 1 := ⟨fuel - 1, by omega⟩
      by_cases hleaves : leaves = []
      · subst hleaves
        simp only [pruneLoop, if_pos rfl] at h
        by_contra hlt
        have hmem := lookupA_mem adj v ns h
        have := hinv (v, ns) hmem (show ns.length ≤ 1 by omega)
        simp at this
      · simp only [pruneLoop, if_neg hleaves] at h
        have hround := roundAux_inv leaves adj [] hnd (by simpa using hinv)
        by_cases hex : ∃ l ∈ leaves, containsKey adj l = true
        · have hlt : (pruneRound adj leaves).1.length < adj.length := by
            unfold pruneRound
            exact roundAux_length_lt leaves adj [] hex
          exact ih f (pruneRound adj leaves).1 (pruneRound adj leaves).2 hround.1 hround.2
            (by omega) (by omega) v ns h
        · push_neg at hex
          have hid : pruneRound adj leaves = (adj, []) :=
            roundAux_id leaves adj [] fun l hl => by
              have := hex l hl
              simpa using this
          rw [hid] at h
          simp only at h
          obtain ⟨g, rfl⟩ : ∃ g, f = g + 1 := ⟨f - 1, by omega⟩
          simp only [pruneLoop, if_pos rfl] at h
          have hinv2 : Inv adj [] := by
            have h2 := hround.2
            rw [show (List.foldl (fun st leaf => pruneLeaf st.1 st.2 leaf) (adj, []) leaves) =
              pruneRound adj leaves from rfl, hid] at h2
            exact h2
          by_contra hlt
          have hmem := lookupA_mem adj v ns h
          have := hinv2 (v, ns) hmem (show ns.length ≤ 1 by omega)
          simp at this

theorem mem_keys_addNeighbor :
    ∀ (adj : List (V × List V)) (u v w : V),
      (w ∈ (addNeighbor adj u v).map fun e => e.1) → (w ∈ adj.map fun e => e.1) ∨ w = u
  | [], u, v, w => by simp [addNeighbor]
  | (k, ms) :: rest, u, v, w => by
      intro hw
      by_cases hu : u = k
      · simp only [addNeighbor, if_pos hu, List.map_cons, List.mem_cons] at hw
        rcases hw with rfl | hw
        · simp
        · exact Or.inl (by simp [hw])
      · simp only [addNeighbor, if_neg hu, List.map_cons, List.mem_cons] at hw
        rcases hw with rfl | hw
        · simp
        · rcases mem_keys_addNeighbor rest u v w hw with h | h
          · exact Or.inl (by simp [h])
          · exact Or.inr h

theorem nodup_addNeighbor :
    ∀ (adj : List (V × List V)) (u v : V), NodupKeys adj → NodupKeys (addNeighbor adj u v)
  | [], u, v => by
      intro _
      simp [addNeighbor, NodupKeys]
  | (k, ms) :: rest, u, v => by
      intro hnd
      by_cases hu : u = k
      · simp only [addNeighbor, if_pos hu]
        unfold NodupKeys at hnd ⊢
        simpa using hnd
      · simp only [addNeighbor, if_neg hu]
        unfold NodupKeys
        simp only [List.map_cons, List.nodup_cons]
        constructor
        · intro hk
          rcases mem_keys_addNeighbor rest u v k hk with h | h
          · exact (nodupKeys_cons hnd).1 h
          · exact hu h.symm
        · exact nodup_addNeighbor rest u v (nodupKeys_cons hnd).2

theorem entries_addNeighbor :
    ∀ (adj : List (V × List V)) (u v : V), (∀ e ∈ adj, e.2 ≠ []) →
      ∀ e ∈ addNeighbor adj u v, e.2 ≠ []
  | [], u, v => by
      intro _ e he
      simp only [addNeighbor, List.mem_singleton] at he
      subst he
      simp
  | (k, ms) :: rest, u, v => by
      intro hne e he
      by_cases hu : u = k
      · simp only [addNeighbor, if_pos hu, List.mem_cons] at he
        rcases he with rfl | he
        · exact insertNb_ne_nil ms v
        · exact hne e (List.mem_cons_of_mem _ he)
      · simp only [addNeighbor, if_neg hu, List.mem_cons] at he
        rcases he with rfl | he
        · exact hne (k, ms) (List.mem_cons_self _ _)
        · exact entries_addNeighbor rest u v (fun e2 he2 => hne e2 (List.mem_cons_of_mem _ he2))
            e he

theorem adjacenciesOf_aux :
    ∀ (conns : List (V × V)) (adj : List (V × List V)),
      NodupKeys adj → (∀ e ∈ adj, e.2 ≠ []) →
        NodupKeys (conns.foldl
            (fun adj c => addNeighbor (addNeighbor adj c.1 c.2) c.2 c.1) adj) ∧
          ∀ e ∈ conns.foldl (fun adj c => addNeighbor (addNeighbor adj c.1 c.2) c.2 c.1) adj,
            e.2 ≠ []
  | [], adj => by
      intro hnd hne
      exact ⟨hnd, hne⟩
  | c :: rest, adj => by
      intro hnd hne
      simp only [List.foldl_cons]
      exact adjacenciesOf_aux rest _
        (nodup_addNeighbor _ c.2 c.1 (nodup_addNeighbor adj c.1 c.2 hnd))
        (entries_addNeighbor _ c.2 c.1 (entries_addNeighbor adj c.1 c.2 hne))

theorem initial_inv (adj : List (V × List V)) (hne : ∀ e ∈ adj, e.2 ≠ []) :
    Inv adj ((adj.filter fun e => e.2.length == 1).map fun e => e.1) := by
  intro e he hlen
  have h1 : 1 ≤ e.2.length := by
    rcases e2 : e.2 with _ | _
    · exact absurd e2 (hne e he)
    · simp [e2]
  have : e.2.length = 1 := by omega
  exact List.mem_map.mpr ⟨e, List.mem_filter.mpr ⟨he, by simp [this]⟩, rfl⟩

end Prune

/-! ### Claim C5 -/

/-- C5: after `PathGraphBuilder::from` finishes pruning, every node
remaining in the adjacency mapping has degree at least 2: no surviving
entry maps to a neighbor set of size 0 or 1, for every input segment
list and every key type used as graph node. -/
theorem c5_pruned_degree_ge_two {V : Type} [DecidableEq V] (connections : List (V × V))
    (v : V) (ns : List V) (h : Prune.lookupA (Prune.builderFrom connections) v = some ns) :
    2 ≤ ns.length := by
  unfold Prune.builderFrom at h
  have hbase := Prune.adjacenciesOf_aux connections [] (by simp [Prune.NodupKeys]) (by simp)
  exact Prune.pruneLoop_ok (Prune.adjacenciesOf connections).length _ _ _ hbase.1
    (Prune.initial_inv _ hbase.2) le_rfl le_rfl v ns h

/-- C5, witness: a triangle with a dangling tail; the tail is pruned and
each surviving node keeps its two triangle neighbors. -/
theorem c5_witness :
    Prune.lookupA (Prune.builderFrom [(0, 1), (1, 2), (2, 0), (0, 3)]) (0 : ℕ) =
        some [1, 2] ∧ 2 ≤ ([1, 2] : List ℕ).length :=
  ⟨by decide, c5_pruned_degree_ge_two [(0, 1), (1, 2), (2, 0), (0, 3)] 0 [1, 2] (by decide)⟩

/-! ### Claim C7 -/

theorem cA_ne_cB : cA ≠ cB := by
  norm_num [cA, cB, Coordinates.mk.injEq]

theorem cB_ne_cA : cB ≠ cA := by
  norm_num [cA, cB, Coordinates.mk.injEq]

theorem cA_ne_cC : cA ≠ cC := by
  norm_num [cA, cC, Coordinates.mk.injEq]

theorem cC_ne_cA : cC ≠ cA := by
  norm_num [cA, cC, Coordinates.mk.injEq]

theorem cA_ne_cD : cA ≠ cD := by
  norm_num [cA, cD, Coordinates.mk.injEq]

theorem cD_ne_cA : cD ≠ cA := by
  norm_num [cA, cD, Coordinates.mk.injEq]

theorem cB_ne_cC : cB ≠ cC := by
  norm_num [cB, cC, Coordinates.mk.injEq]

theorem cC_ne_cB : cC ≠ cB := by
  norm_num [cB, cC, Coordinates.mk.injEq]

theorem cB_ne_cD : cB ≠ cD := by
  norm_num [cB, cD, Coordinates.mk.injEq]

theorem cD_ne_cB : cD ≠ cB := by
  norm_num [cB, cD, Coordinates.mk.injEq]

theorem cC_ne_cD : cC ≠ cD := by
  norm_num [cC, cD, Coordinates.mk.injEq]

theorem cD_ne_cC : cD ≠ cC := by
  norm_num [cC, cD, Coordinates.mk.injEq]

theorem fromConn_self : CoordinatesVector.fromConn (cA, cA) = none := by
  simp only [CoordinatesVector.fromConn, CoordinatesVector.unscaled,
    CoordinatesVector.normalize, CoordinatesVector.norm, cA]
  norm_num [Real.sqrt_zero, fEPS]

theorem builderFrom_selfloop :
    Prune.builderFrom [(cA, cA), (cA, cD), (cD, cB), (cB, cA)] =
      [(cA, [cA, cD, cB]), (cD, [cA, cB]), (cB, [cD, cA])] := by
  norm_num [Prune.builderFrom, Prune.adjacenciesOf, Prune.addNeighbor, Prune.insertNb,
    Prune.lookupA, Prune.pruneLoop, cA_ne_cB, cB_ne_cA, cA_ne_cD, cD_ne_cA, cB_ne_cD,
    cD_ne_cB]

/-- C7: the pipeline is not panic-free.  On the triangle `cA cD cB`
together with the degenerate segment `(cA, cA)` — whose endpoints
coincide and which survives pruning because `cA` keeps degree 3 —
`PathGraphBuilder::build` evaluates `CoordinatesVector::from` on the
zero-length connection `(cA, cA)`, whose `normalize(...).unwrap()`
panics; in the model the whole build aborts with `none`, for every
reference direction. -/
theorem c7_build_panics_on_degenerate_segment (r : CoordinatesVector) :
    pathGraphBuild r (1 / 10) [(cA, cA), (cA, cD), (cD, cB), (cB, cA)] = none := by
  unfold pathGraphBuild
  rw [builderFrom_selfloop]
  norm_num [buildOpt, buildPhase1, processNeighborU, processPair, initEntry, alookup,
    fromConn_self, cA_ne_cB, cB_ne_cA, cA_ne_cD, cD_ne_cA, cB_ne_cD, cD_ne_cB]

/-! ### Concrete evaluations on the square graph -/

theorem projZ_N : mZ.project ⟨0, 1, 0⟩ = some ⟨0, 1, 0⟩ := by
  rw [show mZ.project ⟨0, 1, 0⟩ = CoordinatesVector.normalize ⟨0, 1, 0⟩ (1 / 10) by
    norm_num [PlaneMatcher.project, mZ, CoordinatesVector.dot]]
  rw [normalize_eval (norm_eval _ 1 (by norm_num) (by norm_num)) (by norm_num)]
  norm_num [CoordinatesVector.rescale]

theorem projZ_E : mZ.project ⟨1, 0, 0⟩ = some ⟨1, 0, 0⟩ := by
  rw [show mZ.project ⟨1, 0, 0⟩ = CoordinatesVector.normalize ⟨1, 0, 0⟩ (1 / 10) by
    norm_num [PlaneMatcher.project, mZ, CoordinatesVector.dot]]
  rw [normalize_eval (norm_eval _ 1 (by norm_num) (by norm_num)) (by norm_num)]
  norm_num [CoordinatesVector.rescale]

theorem projZ_S : mZ.project ⟨0, -1, 0⟩ = some ⟨0, -1, 0⟩ := by
  rw [show mZ.project ⟨0, -1, 0⟩ = CoordinatesVector.normalize ⟨0, -1, 0⟩ (1 / 10) by
    norm_num [PlaneMatcher.project, mZ, CoordinatesVector.dot]]
  rw [normalize_eval (norm_eval _ 1 (by norm_num) (by norm_num)) (by norm_num)]
  norm_num [CoordinatesVector.rescale]

theorem projZ_W : mZ.project ⟨-1, 0, 0⟩ = some ⟨-1, 0, 0⟩ := by
  rw [show mZ.project ⟨-1, 0, 0⟩ = CoordinatesVector.normalize ⟨-1, 0, 0⟩ (1 / 10) by
    norm_num [PlaneMatcher.project, mZ, CoordinatesVector.dot]]
  rw [normalize_eval (norm_eval _ 1 (by norm_num) (by norm_num)) (by norm_num)]
  norm_num [CoordinatesVector.rescale]

theorem projY_E : mY.project ⟨1, 0, 0⟩ = some ⟨0, 1, 0⟩ := by
  rw [show mY.project ⟨1, 0, 0⟩ = CoordinatesVector.normalize ⟨0, 1, 0⟩ (1 / 10) by
    norm_num [PlaneMatcher.project, mY, CoordinatesVector.dot]]
  rw [normalize_eval (norm_eval _ 1 (by norm_num) (by norm_num)) (by norm_num)]
  norm_num [CoordinatesVector.rescale]

theorem projY_S : mY.project ⟨0, -1, 0⟩ = some ⟨0, 0, -1⟩ := by
  rw [show mY.project ⟨0, -1, 0⟩ = CoordinatesVector.normalize ⟨0, 0, -1⟩ (1 / 10) by
    norm_num [PlaneMatcher.project, mY, CoordinatesVector.dot]]
  rw [normalize_eval (norm_eval _ 1 (by norm_num) (by norm_num)) (by norm_num)]
  norm_num [CoordinatesVector.rescale]

theorem projY_W : mY.project ⟨-1, 0, 0⟩ = some ⟨0, -1, 0⟩ := by
  rw [show mY.project ⟨-1, 0, 0⟩ = CoordinatesVector.normalize ⟨0, -1, 0⟩ (1 / 10) by
    norm_num [PlaneMatcher.project, mY, CoordinatesVector.dot]]
  rw [normalize_eval (norm_eval _ 1 (by norm_num) (by norm_num)) (by norm_num)]
  norm_num [CoordinatesVector.rescale]

theorem projY_N : mY.project ⟨0, 1, 0⟩ = some ⟨0, 0, 1⟩ := by
  rw [show mY.project ⟨0, 1, 0⟩ = CoordinatesVector.normalize ⟨0, 0, 1⟩ (1 / 10) by
    norm_num [PlaneMatcher.project, mY, CoordinatesVector.dot]]
  rw [normalize_eval (norm_eval _ 1 (by norm_num) (by norm_num)) (by norm_num)]
  norm_num [CoordinatesVector.rescale]

theorem projX_N : mX.project ⟨0, 1, 0⟩ = some ⟨1, 0, 0⟩ := by
  rw [show mX.project ⟨0, 1, 0⟩ = CoordinatesVector.normalize ⟨1, 0, 0⟩ (1 / 10) by
    norm_num [PlaneMatcher.project, mX, CoordinatesVector.dot]]
  rw [normalize_eval (norm_eval _ 1 (by norm_num) (by norm_num)) (by norm_num)]
  norm_num [CoordinatesVector.rescale]

theorem projX_E : mX.project ⟨1, 0, 0⟩ = some ⟨0, 0, 1⟩ := by
  rw [show mX.project ⟨1, 0, 0⟩ = CoordinatesVector.normalize ⟨0, 0, 1⟩ (1 / 10) by
    norm_num [PlaneMatcher.project, mX, CoordinatesVector.dot]]
  rw [normalize_eval (norm_eval _ 1 (by norm_num) (by norm_num)) (by norm_num)]
  norm_num [CoordinatesVector.rescale]

theorem projX_S : mX.project ⟨0, -1, 0⟩ = some ⟨-1, 0, 0⟩ := by
  rw [show mX.project ⟨0, -1, 0⟩ = CoordinatesVector.normalize ⟨-1, 0, 0⟩ (1 / 10) by
    norm_num [PlaneMatcher.project, mX, CoordinatesVector.dot]]
  rw [normalize_eval (norm_eval _ 1 (by norm_num) (by norm_num)) (by norm_num)]
  norm_num [CoordinatesVector.rescale]

theorem projX_W : mX.project ⟨-1, 0, 0⟩ = some ⟨0, 0, -1⟩ := by
  rw [show mX.project ⟨-1, 0, 0⟩ = CoordinatesVector.normalize ⟨0, 0, -1⟩ (1 / 10) by
    norm_num [PlaneMatcher.project, mX, CoordinatesVector.dot]]
  rw [normalize_eval (norm_eval _ 1 (by norm_num) (by norm_num)) (by norm_num)]
  norm_num [CoordinatesVector.rescale]

theorem angZ_NE :
    PlaneMatcher.projectAngleBetween mZ ⟨0, 1, 0⟩ ⟨1, 0, 0⟩ = some (Real.pi / 2) := by
  rw [PlaneMatcher.projectAngleBetween, projZ_N, projZ_E]
  norm_num [atan2_neg_one_zero]
  ring_nf

theorem angZ_ES :
    PlaneMatcher.projectAngleBetween mZ ⟨1, 0, 0⟩ ⟨0, -1, 0⟩ = some (Real.pi / 2) := by
  rw [PlaneMatcher.projectAngleBetween, projZ_E, projZ_S]
  norm_num [atan2_neg_one_zero]
  ring_nf

theorem angZ_SW :
    PlaneMatcher.projectAngleBetween mZ ⟨0, -1, 0⟩ ⟨-1, 0, 0⟩ = some (Real.pi / 2) := by
  rw [PlaneMatcher.projectAngleBetween, projZ_S, projZ_W]
  norm_num [atan2_neg_one_zero]
  ring_nf

theorem angZ_WN :
    PlaneMatcher.projectAngleBetween mZ ⟨-1, 0, 0⟩ ⟨0, 1, 0⟩ = some (Real.pi / 2) := by
  rw [PlaneMatcher.projectAngleBetween, projZ_W, projZ_N]
  norm_num [atan2_neg_one_zero]
  ring_nf

theorem angY_a :
    PlaneMatcher.projectAngleBetween mY ⟨1, 0, 0⟩ ⟨0, -1, 0⟩ = some Real.pi := by
  rw [PlaneMatcher.projectAngleBetween, projY_E, projY_S]
  norm_num [atan2_zero_zero]

theorem angY_b :
    PlaneMatcher.projectAngleBetween mY ⟨0, -1, 0⟩ ⟨-1, 0, 0⟩ = some Real.pi := by
  rw [PlaneMatcher.projectAngleBetween, projY_S, projY_W]
  norm_num [atan2_zero_zero]

theorem angY_c :
    PlaneMatcher.projectAngleBetween mY ⟨-1, 0, 0⟩ ⟨0, 1, 0⟩ = some Real.pi := by
  rw [PlaneMatcher.projectAngleBetween, projY_W, projY_N]
  norm_num [atan2_zero_zero]

theorem angY_d :
    PlaneMatcher.projectAngleBetween mY ⟨0, 1, 0⟩ ⟨1, 0, 0⟩ = some Real.pi := by
  rw [PlaneMatcher.projectAngleBetween, projY_N, projY_E]
  norm_num [atan2_zero_zero]

theorem angX_a :
    PlaneMatcher.projectAngleBetween mX ⟨-1, 0, 0⟩ ⟨0, 1, 0⟩ = some Real.pi := by
  rw [PlaneMatcher.projectAngleBetween, projX_W, projX_N]
  norm_num [atan2_zero_zero]

theorem angX_b :
    PlaneMatcher.projectAngleBetween mX ⟨0, 1, 0⟩ ⟨1, 0, 0⟩ = some Real.pi := by
  rw [PlaneMatcher.projectAngleBetween, projX_N, projX_E]
  norm_num [atan2_zero_zero]

theorem angX_c :
    PlaneMatcher.projectAngleBetween mX ⟨1, 0, 0⟩ ⟨0, -1, 0⟩ = some Real.pi := by
  rw [PlaneMatcher.projectAngleBetween, projX_E, projX_S]
  norm_num [atan2_zero_zero]

theorem angX_d :
    PlaneMatcher.projectAngleBetween mX ⟨0, -1, 0⟩ ⟨-1, 0, 0⟩ = some Real.pi := by
  rw [PlaneMatcher.projectAngleBetween, projX_S, projX_W]
  norm_num [atan2_zero_zero]

theorem sumAux_sq1 :
    PolygonalPath.sumInteriorAux mZ [cA, cB, cC, cD, cA] 0 =
      some (some (0 + Real.pi / 2 + Real.pi / 2 + Real.pi / 2)) := by
  simp only [PolygonalPath.sumInteriorAux, fc_cA_cB, fc_cB_cC, fc_cC_cD, fc_cD_cA,
    angZ_NE, angZ_ES, angZ_SW]

theorem closing_sq1 :
    PolygonalPath.closingAngle mZ [cA, cB, cC, cD, cA] = some (some (Real.pi / 2)) := by
  simp only [PolygonalPath.closingAngle,
    show ([cA, cB, cC, cD, cA] : List Coordinates).get?
      (([cA, cB, cC, cD, cA] : List Coordinates).length - 2) = some cD from rfl,
    show ([cA, cB, cC, cD, cA] : List Coordinates).get? 0 = some cA from rfl,
    show ([cA, cB, cC, cD, cA] : List Coordinates).get? 1 = some cB from rfl,
    fc_cD_cA, fc_cA_cB, angZ_WN]

theorem valid_sq1 : PolygonalPath.isValidOn [cA, cB, cC, cD, cA] mZ (1 / 10) = some true := by
  rw [PolygonalPath.isValidOn,
    if_neg (by simp [show ([cA, cB, cC, cD, cA] : List Coordinates).getLast? = some cA
      from rfl])]
  rw [PolygonalPath.sumInteriorAngles,
    if_neg (by norm_num [show ([cA, cB, cC, cD, cA] : List Coordinates).length = 5 from rfl])]
  simp only [sumAux_sq1, closing_sq1,
    show (([cA, cB, cC, cD, cA] : List Coordinates).length - 3 : ℕ) = 2 from rfl]
  have h : |(0 : ℝ) + Real.pi / 2 + Real.pi / 2 + Real.pi / 2 + Real.pi / 2 -
      Real.pi * ((2 : ℕ) : ℝ)| ≤ 1 / 10 := by
    have h2 : (0 : ℝ) + Real.pi / 2 + Real.pi / 2 + Real.pi / 2 + Real.pi / 2 -
        Real.pi * ((2 : ℕ) : ℝ) = 0 := by
      push_cast
      ring
    rw [h2]
    norm_num
  rw [decide_eq_true h]

theorem sumAux_sq3 :
    PolygonalPath.sumInteriorAux mZ [cC, cD, cA, cB, cC] 0 =
      some (some (0 + Real.pi / 2 + Real.pi / 2 + Real.pi / 2)) := by
  simp only [PolygonalPath.sumInteriorAux, fc_cC_cD, fc_cD_cA, fc_cA_cB, fc_cB_cC,
    angZ_SW, angZ_WN, angZ_NE]

theorem closing_sq3 :
    PolygonalPath.closingAngle mZ [cC, cD, cA, cB, cC] = some (some (Real.pi / 2)) := by
  simp only [PolygonalPath.closingAngle,
    show ([cC, cD, cA, cB, cC] : List Coordinates).get?
      (([cC, cD, cA, cB, cC] : List Coordinates).length - 2) = some cB from rfl,
    show ([cC, cD, cA, cB, cC] : List Coordinates).get? 0 = some cC from rfl,
    show ([cC, cD, cA, cB, cC] : List Coordinates).get? 1 = some cD from rfl,
    fc_cB_cC, fc_cC_cD, angZ_ES]

theorem valid_sq3 : PolygonalPath.isValidOn [cC, cD, cA, cB, cC] mZ (1 / 10) = some true := by
  rw [PolygonalPath.isValidOn,
    if_neg (by simp [show ([cC, cD, cA, cB, cC] : List Coordinates).getLast? = some cC
      from rfl])]
  rw [PolygonalPath.sumInteriorAngles,
    if_neg (by norm_num [show ([cC, cD, cA, cB, cC] : List Coordinates).length = 5 from rfl])]
  simp only [sumAux_sq3, closing_sq3,
    show (([cC, cD, cA, cB, cC] : List Coordinates).length - 3 : ℕ) = 2 from rfl]
  have h : |(0 : ℝ) + Real.pi / 2 + Real.pi / 2 + Real.pi / 2 + Real.pi / 2 -
      Real.pi * ((2 : ℕ) : ℝ)| ≤ 1 / 10 := by
    have h2 : (0 : ℝ) + Real.pi / 2 + Real.pi / 2 + Real.pi / 2 + Real.pi / 2 -
        Real.pi * ((2 : ℕ) : ℝ) = 0 := by
      push_cast
      ring
    rw [h2]
    norm_num
  rw [decide_eq_true h]

theorem sumAux_sq2 :
    PolygonalPath.sumInteriorAux mY [cB, cC, cD, cA, cB] 0 =
      some (some (0 + Real.pi + Real.pi + Real.pi)) := by
  simp only [PolygonalPath.sumInteriorAux, fc_cB_cC, fc_cC_cD, fc_cD_cA, fc_cA_cB,
    angY_a, angY_b, angY_c]

theorem closing_sq2 :
    PolygonalPath.closingAngle mY [cB, cC, cD, cA, cB] = some (some Real.pi) := by
  simp only [PolygonalPath.closingAngle,
    show ([cB, cC, cD, cA, cB] : List Coordinates).get?
      (([cB, cC, cD, cA, cB] : List Coordinates).length - 2) = some cA from rfl,
    show ([cB, cC, cD, cA, cB] : List Coordinates).get? 0 = some cB from rfl,
    show ([cB, cC, cD, cA, cB] : List Coordinates).get? 1 = some cC from rfl,
    fc_cA_cB, fc_cB_cC, angY_d]

theorem invalid_sq2 :
    PolygonalPath.isValidOn [cB, cC, cD, cA, cB] mY (1 / 10) = some false := by
  rw [PolygonalPath.isValidOn,
    if_neg (by simp [show ([cB, cC, cD, cA, cB] : List Coordinates).getLast? = some cB
      from rfl])]
  rw [PolygonalPath.sumInteriorAngles,
    if_neg (by norm_num [show ([cB, cC, cD, cA, cB] : List Coordinates).length = 5 from rfl])]
  simp only [sumAux_sq2, closing_sq2,
    show (([cB, cC, cD, cA, cB] : List Coordinates).length - 3 : ℕ) = 2 from rfl]
  have h : ¬ |(0 : ℝ) + Real.pi + Real.pi + Real.pi + Real.pi -
      Real.pi * ((2 : ℕ) : ℝ)| ≤ 1 / 10 := by
    have h2 : (0 : ℝ) + Real.pi + Real.pi + Real.pi + Real.pi -
        Real.pi * ((2 : ℕ) : ℝ) = 2 * Real.pi := by
      push_cast
      ring
    rw [h2, abs_of_nonneg (by positivity)]
    nlinarith [Real.pi_gt_three]
  rw [decide_eq_false h]

theorem sumAux_sq4 :
    PolygonalPath.sumInteriorAux mX [cD, cA, cB, cC, cD] 0 =
      some (some (0 + Real.pi + Real.pi + Real.pi)) := by
  simp only [PolygonalPath.sumInteriorAux, fc_cD_cA, fc_cA_cB, fc_cB_cC, fc_cC_cD,
    angX_a, angX_b, angX_c]

theorem closing_sq4 :
    PolygonalPath.closingAngle mX [cD, cA, cB, cC, cD] = some (some Real.pi) := by
  simp only [PolygonalPath.closingAngle,
    show ([cD, cA, cB, cC, cD] : List Coordinates).get?
      (([cD, cA, cB, cC, cD] : List Coordinates).length - 2) = some cC from rfl,
    show ([cD, cA, cB, cC, cD] : List Coordinates).get? 0 = some cD from rfl,
    show ([cD, cA, cB, cC, cD] : List Coordinates).get? 1 = some cA from rfl,
    fc_cC_cD, fc_cD_cA, angX_d]

theorem invalid_sq4 :
    PolygonalPath.isValidOn [cD, cA, cB, cC, cD] mX (1 / 10) = some false := by
  rw [PolygonalPath.isValidOn,
    if_neg (by simp [show ([cD, cA, cB, cC, cD] : List Coordinates).getLast? = some cD
      from rfl])]
  rw [PolygonalPath.sumInteriorAngles,
    if_neg (by norm_num [show ([cD, cA, cB, cC, cD] : List Coordinates).length = 5 from rfl])]
  simp only [sumAux_sq4, closing_sq4,
    show (([cD, cA, cB, cC, cD] : List Coordinates).length - 3 : ℕ) = 2 from rfl]
  have h : ¬ |(0 : ℝ) + Real.pi + Real.pi + Real.pi + Real.pi -
      Real.pi * ((2 : ℕ) : ℝ)| ≤ 1 / 10 := by
    have h2 : (0 : ℝ) + Real.pi + Real.pi + Real.pi + Real.pi -
        Real.pi * ((2 : ℕ) : ℝ) = 2 * Real.pi := by
      push_cast
      ring
    rw [h2, abs_of_nonneg (by positivity)]
    nlinarith [Real.pi_gt_three]
  rw [decide_eq_false h]

theorem normal_NE : CoordinatesVector.normal ⟨0, 1, 0⟩ ⟨1, 0, 0⟩ fEPS = some ⟨0, 0, -1⟩ := by
  have hc : CoordinatesVector.cross ⟨0, 1, 0⟩ ⟨1, 0, 0⟩ = ⟨0, 0, -1⟩ := by
    norm_num [CoordinatesVector.cross]
  have hn : CoordinatesVector.norm ⟨0, 0, -1⟩ = 1 := norm_eval _ 1 (by norm_num) (by norm_num)
  simp only [CoordinatesVector.normal, hc, hn]
  rw [if_neg (by norm_num [fEPS])]
  norm_num [CoordinatesVector.rescale]

theorem normal_SW :
    CoordinatesVector.normal ⟨0, -1, 0⟩ ⟨-1, 0, 0⟩ fEPS = some ⟨0, 0, -1⟩ := by
  have hc : CoordinatesVector.cross ⟨0, -1, 0⟩ ⟨-1, 0, 0⟩ = ⟨0, 0, -1⟩ := by
    norm_num [CoordinatesVector.cross]
  have hn : CoordinatesVector.norm ⟨0, 0, -1⟩ = 1 := norm_eval _ 1 (by norm_num) (by norm_num)
  simp only [CoordinatesVector.normal, hc, hn]
  rw [if_neg (by norm_num [fEPS])]
  norm_num [CoordinatesVector.rescale]

theorem revP_sq1 :
    Path.reverseIfNormalIsNegative [cA, cB, cC, cD, cA] = some [cA, cD, cC, cB, cA] := by
  norm_num [Path.reverseIfNormalIsNegative, Path.firstNegNormal, fc_cA_cB, fc_cB_cC,
    normal_NE]

theorem revP_sq3 :
    Path.reverseIfNormalIsNegative [cC, cD, cA, cB, cC] = some [cC, cB, cA, cD, cC] := by
  norm_num [Path.reverseIfNormalIsNegative, Path.firstNegNormal, fc_cC_cD, fc_cD_cA,
    normal_SW]

theorem pins_new : pathsInsert [] [cA, cD, cC, cB, cA] = [[cA, cD, cC, cB, cA]] := by
  rw [pathsInsert, if_neg (by simp)]
  rfl

theorem pins_dup :
    pathsInsert [[cA, cD, cC, cB, cA]] [cC, cB, cA, cD, cC] = [[cA, cD, cC, cB, cA]] := by
  have h : ∃ p ∈ [[cA, cD, cC, cB, cA]], sameVertexSet p [cC, cB, cA, cD, cC] := by
    refine ⟨[cA, cD, cC, cB, cA], by simp, fun c => ?_⟩
    simp only [List.mem_cons, List.not_mem_nil, or_false]
    tauto
  rw [pathsInsert, if_pos h]

theorem saveP_sq1 :
    savePathsP (1 / 10) [] [cA, cB, cC, cD] mZ = some [[cA, cD, cC, cB, cA]] := by
  simp only [savePathsP,
    show PolygonalPath.pathFromSeq [cA, cB, cC, cD] = [cA, cB, cC, cD, cA] from rfl,
    valid_sq1, revP_sq1, pins_new]

theorem saveP_sq2 :
    savePathsP (1 / 10) [[cA, cD, cC, cB, cA]] [cB, cC, cD, cA] mY =
      some [[cA, cD, cC, cB, cA]] := by
  simp only [savePathsP,
    show PolygonalPath.pathFromSeq [cB, cC, cD, cA] = [cB, cC, cD, cA, cB] from rfl,
    invalid_sq2]

theorem saveP_sq3 :
    savePathsP (1 / 10) [[cA, cD, cC, cB, cA]] [cC, cD, cA, cB] mZ =
      some [[cA, cD, cC, cB, cA]] := by
  simp only [savePathsP,
    show PolygonalPath.pathFromSeq [cC, cD, cA, cB] = [cC, cD, cA, cB, cC] from rfl,
    valid_sq3, revP_sq3, pins_dup]

theorem saveP_sq4 :
    savePathsP (1 / 10) [[cA, cD, cC, cB, cA]] [cD, cA, cB, cC] mX =
      some [[cA, cD, cC, cB, cA]] := by
  simp only [savePathsP,
    show PolygonalPath.pathFromSeq [cD, cA, cB, cC] = [cD, cA, cB, cC, cD] from rfl,
    invalid_sq4]

theorem parallel_x_z_false :
    CoordinatesVector.isParallelTo ⟨1, 0, 0⟩ ⟨0, 0, 1⟩ (1 / 10) = false := by
  refine isParallelTo_false ?_
  rw [show CoordinatesVector.cross ⟨1, 0, 0⟩ ⟨0, 0, 1⟩ = ⟨0, -1, 0⟩ by
    norm_num [CoordinatesVector.cross]]
  rw [norm_eval _ 1 (by norm_num) (by norm_num)]
  norm_num

theorem parallel_y_z_false :
    CoordinatesVector.isParallelTo ⟨0, 1, 0⟩ ⟨0, 0, 1⟩ (1 / 10) = false := by
  refine isParallelTo_false ?_
  rw [show CoordinatesVector.cross ⟨0, 1, 0⟩ ⟨0, 0, 1⟩ = ⟨1, 0, 0⟩ by
    norm_num [CoordinatesVector.cross]]
  rw [norm_eval _ 1 (by norm_num) (by norm_num)]
  norm_num

theorem parallel_z_y_false :
    CoordinatesVector.isParallelTo ⟨0, 0, 1⟩ ⟨0, 1, 0⟩ (1 / 10) = false := by
  refine isParallelTo_false ?_
  rw [show CoordinatesVector.cross ⟨0, 0, 1⟩ ⟨0, 1, 0⟩ = ⟨-1, 0, 0⟩ by
    norm_num [CoordinatesVector.cross]]
  rw [norm_eval _ 1 (by norm_num) (by norm_num)]
  norm_num

theorem mRl_Z_undef :
    PlaneMatcher.matchAgainstRelaxed mZ (PlaneMatcher.undefined (1 / 10)) true = some mZ := by
  simp [PlaneMatcher.matchAgainstRelaxed, mZ, PlaneMatcher.undefined]

theorem mRl_X_undef :
    PlaneMatcher.matchAgainstRelaxed mX (PlaneMatcher.undefined (1 / 10)) true = some mX := by
  simp [PlaneMatcher.matchAgainstRelaxed, mX, PlaneMatcher.undefined]

theorem mRl_Y_undef :
    PlaneMatcher.matchAgainstRelaxed mY (PlaneMatcher.undefined (1 / 10)) true = some mY := by
  simp [PlaneMatcher.matchAgainstRelaxed, mY, PlaneMatcher.undefined]

theorem mRl_X_Z : PlaneMatcher.matchAgainstRelaxed mX mZ true = some mX := by
  simp [PlaneMatcher.matchAgainstRelaxed, mX, mZ]

theorem mRl_Z_X : PlaneMatcher.matchAgainstRelaxed mZ mX true = some mZ := by
  simp [PlaneMatcher.matchAgainstRelaxed, mZ, mX]

theorem mRl_Y_Z : PlaneMatcher.matchAgainstRelaxed mY mZ true = some mY := by
  simp [PlaneMatcher.matchAgainstRelaxed, mY, mZ]

theorem mRl_Z_Y : PlaneMatcher.matchAgainstRelaxed mZ mY true = some mZ := by
  simp [PlaneMatcher.matchAgainstRelaxed, mZ, mY]

theorem mA_Z_undef :
    PlaneMatcher.matchAgainst mZ (PlaneMatcher.undefined (1 / 10)) = some mZ := by
  simp [PlaneMatcher.matchAgainst, mZ, PlaneMatcher.undefined]

theorem mA_X_undef :
    PlaneMatcher.matchAgainst mX (PlaneMatcher.undefined (1 / 10)) = some mX := by
  simp [PlaneMatcher.matchAgainst, mX, PlaneMatcher.undefined]

theorem mA_Y_undef :
    PlaneMatcher.matchAgainst mY (PlaneMatcher.undefined (1 / 10)) = some mY := by
  simp [PlaneMatcher.matchAgainst, mY, PlaneMatcher.undefined]

theorem mA_X_Z : PlaneMatcher.matchAgainst mX mZ = none := by
  simp only [PlaneMatcher.matchAgainst, mX, mZ]
  rw [parallel_x_z_false]
  simp

theorem mA_Z_X : PlaneMatcher.matchAgainst mZ mX = none := by
  simp only [PlaneMatcher.matchAgainst, mZ, mX]
  rw [parallel_z_x_false]
  simp

theorem mA_Y_Z : PlaneMatcher.matchAgainst mY mZ = none := by
  simp only [PlaneMatcher.matchAgainst, mY, mZ]
  rw [parallel_y_z_false]
  simp

theorem mA_Z_Y : PlaneMatcher.matchAgainst mZ mY = none := by
  simp only [PlaneMatcher.matchAgainst, mZ, mY]
  rw [parallel_z_y_false]
  simp

theorem trP_root1 (f : ℕ) :
    traverse (savePathsP (1 / 10)) matchFnP sqGraph (f + 1 + 1 + 1 + 1)
      ⟨[], [], [cA], [cA]⟩ (cA, cB) (PlaneMatcher.undefined (1 / 10)) =
      some (⟨[((cB, cC, cD), [mX]), ((cA, cB, cC), [mZ])], [[cA, cD, cC, cB, cA]],
        [cA], [cA]⟩, RecRes.done) := by
  simp [-one_div, traverse, loopAux, cacheHit, cacheRecord, precedent, cacheContains,
    cacheInsert, alookup, rootOf, TraceSt.push, TraceSt.pop, removeFirst, matchFnP, sqGraph,
    mRl_Z_undef, mRl_X_Z, mRl_Z_X, saveP_sq1,
    cA_ne_cB, cB_ne_cA, cA_ne_cC, cC_ne_cA, cA_ne_cD, cD_ne_cA,
    cB_ne_cC, cC_ne_cB, cB_ne_cD, cD_ne_cB, cC_ne_cD, cD_ne_cC]

theorem trP_root2 (f : ℕ) :
    traverse (savePathsP (1 / 10)) matchFnP sqGraph (f + 1 + 1 + 1 + 1)
      ⟨[], [[cA, cD, cC, cB, cA]], [cB], [cB]⟩ (cB, cC) (PlaneMatcher.undefined (1 / 10)) =
      some (⟨[((cC, cD, cA), [mZ]), ((cB, cC, cD), [mX])], [[cA, cD, cC, cB, cA]],
        [cB], [cB]⟩, RecRes.done) := by
  simp [-one_div, traverse, loopAux, cacheHit, cacheRecord, precedent, cacheContains,
    cacheInsert, alookup, rootOf, TraceSt.push, TraceSt.pop, removeFirst, matchFnP, sqGraph,
    mRl_X_undef, mRl_Z_X, mRl_Y_Z, saveP_sq2,
    cA_ne_cB, cB_ne_cA, cA_ne_cC, cC_ne_cA, cA_ne_cD, cD_ne_cA,
    cB_ne_cC, cC_ne_cB, cB_ne_cD, cD_ne_cB, cC_ne_cD, cD_ne_cC]

theorem trP_root3 (f : ℕ) :
    traverse (savePathsP (1 / 10)) matchFnP sqGraph (f + 1 + 1 + 1 + 1)
      ⟨[], [[cA, cD, cC, cB, cA]], [cC], [cC]⟩ (cC, cD) (PlaneMatcher.undefined (1 / 10)) =
      some (⟨[((cD, cA, cB), [mY]), ((cC, cD, cA), [mZ])], [[cA, cD, cC, cB, cA]],
        [cC], [cC]⟩, RecRes.done) := by
  simp [-one_div, traverse, loopAux, cacheHit, cacheRecord, precedent, cacheContains,
    cacheInsert, alookup, rootOf, TraceSt.push, TraceSt.pop, removeFirst, matchFnP, sqGraph,
    mRl_Z_undef, mRl_Y_Z, mRl_Z_Y, saveP_sq3,
    cA_ne_cB, cB_ne_cA, cA_ne_cC, cC_ne_cA, cA_ne_cD, cD_ne_cA,
    cB_ne_cC, cC_ne_cB, cB_ne_cD, cD_ne_cB, cC_ne_cD, cD_ne_cC]

theorem trP_root4 (f : ℕ) :
    traverse (savePathsP (1 / 10)) matchFnP sqGraph (f + 1 + 1 + 1 + 1)
      ⟨[], [[cA, cD, cC, cB, cA]], [cD], [cD]⟩ (cD, cA) (PlaneMatcher.undefined (1 / 10)) =
      some (⟨[((cA, cB, cC), [mZ]), ((cD, cA, cB), [mY])], [[cA, cD, cC, cB, cA]],
        [cD], [cD]⟩, RecRes.done) := by
  simp [-one_div, traverse, loopAux, cacheHit, cacheRecord, precedent, cacheContains,
    cacheInsert, alookup, rootOf, TraceSt.push, TraceSt.pop, removeFirst, matchFnP, sqGraph,
    mRl_Y_undef, mRl_Z_Y, mRl_X_Z, saveP_sq4,
    cA_ne_cB, cB_ne_cA, cA_ne_cC, cC_ne_cA, cA_ne_cD, cD_ne_cA,
    cB_ne_cC, cC_ne_cB, cB_ne_cD, cD_ne_cB, cC_ne_cD, cD_ne_cC]

theorem trQ_root1 (f : ℕ) :
    traverse (savePathsQ (1 / 10)) matchFnQ sqGraph (f + 1 + 1)
      ⟨[], [], [cA], [cA]⟩ (cA, cB) (PlaneMatcher.undefined (1 / 10)) =
      some (⟨[((cA, cB, cC), [mZ])], [], [cA], [cA]⟩, RecRes.done) := by
  simp [-one_div, traverse, loopAux, cacheHit, cacheRecord, precedent, cacheContains,
    cacheInsert, alookup, rootOf, TraceSt.push, TraceSt.pop, removeFirst, matchFnQ, sqGraph,
    mA_Z_undef, mA_X_Z,
    cA_ne_cB, cB_ne_cA, cA_ne_cC, cC_ne_cA, cA_ne_cD, cD_ne_cA,
    cB_ne_cC, cC_ne_cB, cB_ne_cD, cD_ne_cB, cC_ne_cD, cD_ne_cC]

theorem trQ_root2 (f : ℕ) :
    traverse (savePathsQ (1 / 10)) matchFnQ sqGraph (f + 1 + 1)
      ⟨[((cA, cB, cC), [mZ])], [], [cB], [cB]⟩ (cB, cC) (PlaneMatcher.undefined (1 / 10)) =
      some (⟨[((cA, cB, cC), [mZ]), ((cB, cC, cD), [mX])], [], [cB], [cB]⟩,
        RecRes.done) := by
  simp [-one_div, traverse, loopAux, cacheHit, cacheRecord, precedent, cacheContains,
    cacheInsert, alookup, rootOf, TraceSt.push, TraceSt.pop, removeFirst, matchFnQ, sqGraph,
    mA_X_undef, mA_Z_X,
    cA_ne_cB, cB_ne_cA, cA_ne_cC, cC_ne_cA, cA_ne_cD, cD_ne_cA,
    cB_ne_cC, cC_ne_cB, cB_ne_cD, cD_ne_cB, cC_ne_cD, cD_ne_cC]

theorem trQ_root3 (f : ℕ) :
    traverse (savePathsQ (1 / 10)) matchFnQ sqGraph (f + 1 + 1)
      ⟨[((cA, cB, cC), [mZ]), ((cB, cC, cD), [mX])], [], [cC], [cC]⟩ (cC, cD)
      (PlaneMatcher.undefined (1 / 10)) =
      some (⟨[((cA, cB, cC), [mZ]), ((cB, cC, cD), [mX]), ((cC, cD, cA), [mZ])], [],
        [cC], [cC]⟩, RecRes.done) := by
  simp [-one_div, traverse, loopAux, cacheHit, cacheRecord, precedent, cacheContains,
    cacheInsert, alookup, rootOf, TraceSt.push, TraceSt.pop, removeFirst, matchFnQ, sqGraph,
    mA_Z_undef, mA_Y_Z,
    cA_ne_cB, cB_ne_cA, cA_ne_cC, cC_ne_cA, cA_ne_cD, cD_ne_cA,
    cB_ne_cC, cC_ne_cB, cB_ne_cD, cD_ne_cB, cC_ne_cD, cD_ne_cC]

theorem trQ_root4 (f : ℕ) :
    traverse (savePathsQ (1 / 10)) matchFnQ sqGraph (f + 1 + 1)
      ⟨[((cA, cB, cC), [mZ]), ((cB, cC, cD), [mX]), ((cC, cD, cA), [mZ])], [], [cD], [cD]⟩
      (cD, cA) (PlaneMatcher.undefined (1 / 10)) =
      some (⟨[((cA, cB, cC), [mZ]), ((cB, cC, cD), [mX]), ((cC, cD, cA), [mZ]),
        ((cD, cA, cB), [mY])], [], [cD], [cD]⟩, RecRes.done) := by
  simp [-one_div, traverse, loopAux, cacheHit, cacheRecord, precedent, cacheContains,
    cacheInsert, alookup, rootOf, TraceSt.push, TraceSt.pop, removeFirst, matchFnQ, sqGraph,
    mA_Y_undef, mA_Z_Y,
    cA_ne_cB, cB_ne_cA, cA_ne_cC, cC_ne_cA, cA_ne_cD, cD_ne_cA,
    cB_ne_cC, cC_ne_cB, cB_ne_cD, cD_ne_cB, cC_ne_cD, cD_ne_cC]

/-! ### Claim C2 -/

theorem sqGraph_foldl {α : Type}
    (fn : α → (Coordinates × Coordinates) ×
      List (PlaneMatcher × (Coordinates × Coordinates)) → α) (init : α) :
    sqGraph.foldl fn init =
      fn (fn (fn (fn init ((cA, cB), [(mZ, (cB, cC))])) ((cB, cC), [(mX, (cC, cD))]))
        ((cC, cD), [(mZ, (cD, cA))])) ((cD, cA), [(mY, (cA, cB))]) :=
  rfl

theorem bsP1 :
    buildStepP sqGraph (1 / 10) 4 ⟨[], [], [], []⟩ (cA, cB) =
      some ⟨[((cB, cC, cD), [mX]), ((cA, cB, cC), [mZ])], [[cA, cD, cC, cB, cA]],
        [], []⟩ := by
  have hp : traverse (savePathsP (1 / 10)) matchFnP sqGraph 4
      ⟨[], [], [cA], [cA]⟩ (cA, cB) (PlaneMatcher.undefined (1 / 10)) =
      some (⟨[((cB, cC, cD), [mX]), ((cA, cB, cC), [mZ])], [[cA, cD, cC, cB, cA]],
        [cA], [cA]⟩, RecRes.done) := trP_root1 0
  simp [-one_div, buildStepP, TraceSt.push, TraceSt.pop, removeFirst, hp]

theorem bsP2 :
    buildStepP sqGraph (1 / 10) 4
      ⟨[((cB, cC, cD), [mX]), ((cA, cB, cC), [mZ])], [[cA, cD, cC, cB, cA]], [], []⟩
      (cB, cC) =
      some ⟨[((cC, cD, cA), [mZ]), ((cB, cC, cD), [mX])], [[cA, cD, cC, cB, cA]],
        [], []⟩ := by
  have hp : traverse (savePathsP (1 / 10)) matchFnP sqGraph 4
      ⟨[], [[cA, cD, cC, cB, cA]], [cB], [cB]⟩ (cB, cC) (PlaneMatcher.undefined (1 / 10)) =
      some (⟨[((cC, cD, cA), [mZ]), ((cB, cC, cD), [mX])], [[cA, cD, cC, cB, cA]],
        [cB], [cB]⟩, RecRes.done) := trP_root2 0
  simp [-one_div, buildStepP, TraceSt.push, TraceSt.pop, removeFirst, hp]

theorem bsP3 :
    buildStepP sqGraph (1 / 10) 4
      ⟨[((cC, cD, cA), [mZ]), ((cB, cC, cD), [mX])], [[cA, cD, cC, cB, cA]], [], []⟩
      (cC, cD) =
      some ⟨[((cD, cA, cB), [mY]), ((cC, cD, cA), [mZ])], [[cA, cD, cC, cB, cA]],
        [], []⟩ := by
  have hp : traverse (savePathsP (1 / 10)) matchFnP sqGraph 4
      ⟨[], [[cA, cD, cC, cB, cA]], [cC], [cC]⟩ (cC, cD) (PlaneMatcher.undefined (1 / 10)) =
      some (⟨[((cD, cA, cB), [mY]), ((cC, cD, cA), [mZ])], [[cA, cD, cC, cB, cA]],
        [cC], [cC]⟩, RecRes.done) := trP_root3 0
  simp [-one_div, buildStepP, TraceSt.push, TraceSt.pop, removeFirst, hp]

theorem bsP4 :
    buildStepP sqGraph (1 / 10) 4
      ⟨[((cD, cA, cB), [mY]), ((cC, cD, cA), [mZ])], [[cA, cD, cC, cB, cA]], [], []⟩
      (cD, cA) =
      some ⟨[((cA, cB, cC), [mZ]), ((cD, cA, cB), [mY])], [[cA, cD, cC, cB, cA]],
        [], []⟩ := by
  have hp : traverse (savePathsP (1 / 10)) matchFnP sqGraph 4
      ⟨[], [[cA, cD, cC, cB, cA]], [cD], [cD]⟩ (cD, cA) (PlaneMatcher.undefined (1 / 10)) =
      some (⟨[((cA, cB, cC), [mZ]), ((cD, cA, cB), [mY])], [[cA, cD, cC, cB, cA]],
        [cD], [cD]⟩, RecRes.done) := trP_root4 0
  simp [-one_div, buildStepP, TraceSt.push, TraceSt.pop, removeFirst, hp]

theorem bsQ1 :
    buildStepQ sqGraph (1 / 10) 4 ⟨[], [], [], []⟩ (cA, cB) =
      some ⟨[((cA, cB, cC), [mZ])], [], [], []⟩ := by
  have hp : traverse (savePathsQ (1 / 10)) matchFnQ sqGraph 4
      ⟨[], [], [cA], [cA]⟩ (cA, cB) (PlaneMatcher.undefined (1 / 10)) =
      some (⟨[((cA, cB, cC), [mZ])], [], [cA], [cA]⟩, RecRes.done) := trQ_root1 2
  simp [-one_div, buildStepQ, TraceSt.push, TraceSt.pop, removeFirst, hp]

theorem bsQ2 :
    buildStepQ sqGraph (1 / 10) 4 ⟨[((cA, cB, cC), [mZ])], [], [], []⟩ (cB, cC) =
      some ⟨[((cA, cB, cC), [mZ]), ((cB, cC, cD), [mX])], [], [], []⟩ := by
  have hp : traverse (savePathsQ (1 / 10)) matchFnQ sqGraph 4
      ⟨[((cA, cB, cC), [mZ])], [], [cB], [cB]⟩ (cB, cC) (PlaneMatcher.undefined (1 / 10)) =
      some (⟨[((cA, cB, cC), [mZ]), ((cB, cC, cD), [mX])], [], [cB], [cB]⟩,
        RecRes.done) := trQ_root2 2
  simp [-one_div, buildStepQ, TraceSt.push, TraceSt.pop, removeFirst, hp]

theorem bsQ3 :
    buildStepQ sqGraph (1 / 10) 4
      ⟨[((cA, cB, cC), [mZ]), ((cB, cC, cD), [mX])], [], [], []⟩ (cC, cD) =
      some ⟨[((cA, cB, cC), [mZ]), ((cB, cC, cD), [mX]), ((cC, cD, cA), [mZ])], [],
        [], []⟩ := by
  have hp : traverse (savePathsQ (1 / 10)) matchFnQ sqGraph 4
      ⟨[((cA, cB, cC), [mZ]), ((cB, cC, cD), [mX])], [], [cC], [cC]⟩ (cC, cD)
      (PlaneMatcher.undefined (1 / 10)) =
      some (⟨[((cA, cB, cC), [mZ]), ((cB, cC, cD), [mX]), ((cC, cD, cA), [mZ])], [],
        [cC], [cC]⟩, RecRes.done) := trQ_root3 2
  simp [-one_div, buildStepQ, TraceSt.push, TraceSt.pop, removeFirst, hp]

theorem bsQ4 :
    buildStepQ sqGraph (1 / 10) 4
      ⟨[((cA, cB, cC), [mZ]), ((cB, cC, cD), [mX]), ((cC, cD, cA), [mZ])], [], [], []⟩
      (cD, cA) =
      some ⟨[((cA, cB, cC), [mZ]), ((cB, cC, cD), [mX]), ((cC, cD, cA), [mZ]),
        ((cD, cA, cB), [mY])], [], [], []⟩ := by
  have hp : traverse (savePathsQ (1 / 10)) matchFnQ sqGraph 4
      ⟨[((cA, cB, cC), [mZ]), ((cB, cC, cD), [mX]), ((cC, cD, cA), [mZ])], [], [cD], [cD]⟩
      (cD, cA) (PlaneMatcher.undefined (1 / 10)) =
      some (⟨[((cA, cB, cC), [mZ]), ((cB, cC, cD), [mX]), ((cC, cD, cA), [mZ]),
        ((cD, cA, cB), [mY])], [], [cD], [cD]⟩, RecRes.done) := trQ_root4 2
  simp [-one_div, buildStepQ, TraceSt.push, TraceSt.pop, removeFirst, hp]

/-- C2, counterexample: on the annotated square graph the per-root-cache
tracer of `path.rs` (which also passes `matchers.len() == 1` as the
relaxed flag) outputs the square polygon, while the shared-cache tracer
of `polygon.rs` (strict matching) outputs nothing: the two final polygon
sets differ. -/
theorem c2_counterexample :
    buildP sqGraph (1 / 10) 4 = some [[cA, cD, cC, cB, cA]] ∧
      buildQ sqGraph (1 / 10) 4 = some [] := by
  constructor
  · simp only [buildP]
    rw [sqGraph_foldl]
    simp [-one_div, bsP1, bsP2, bsP3, bsP4]
  · simp only [buildQ]
    rw [sqGraph_foldl]
    simp [-one_div, bsQ1, bsQ2, bsQ3, bsQ4]

theorem alookup_all_nil {g : PathGraphL}
    (hg : ∀ e ∈ g, e.2 = ([] : List (PlaneMatcher × (Coordinates × Coordinates))))
    (k : Coordinates × Coordinates) :
    alookup g k = none ∨ alookup g k = some [] := by
  induction g with
  | nil => exact Or.inl rfl
  | cons e rest ih =>
      obtain ⟨ek, ev⟩ := e
      have he : ev = [] := hg (ek, ev) (List.mem_cons_self _ _)
      subst he
      simp only [alookup]
      by_cases hk : k = ek
      · rw [if_pos hk]
        exact Or.inr rfl
      · rw [if_neg hk]
        exact ih fun e2 h2 => hg e2 (List.mem_cons_of_mem _ h2)

theorem traverse_no_successors
    (saveFn : List (List Coordinates) → List Coordinates → PlaneMatcher →
      Option (List (List Coordinates)))
    (matchFn : ℕ → PlaneMatcher → PlaneMatcher → Option PlaneMatcher)
    (g : PathGraphL) (f : ℕ) (cache : CacheTable) (paths : List (List Coordinates))
    (a b : Coordinates) (pl : PlaneMatcher) (hab : b ≠ a)
    (hg : ∀ e ∈ g, e.2 = ([] : List (PlaneMatcher × (Coordinates × Coordinates)))) :
    traverse saveFn matchFn g (f + 1) ⟨cache, paths, [a], [a]⟩ (a, b) pl =
      some (⟨cache, paths, [a], [a]⟩, RecRes.done) := by
  rcases alookup_all_nil hg (a, b) with h | h
  · simp [traverse, cacheHit, precedent, rootOf, hab, h, cacheRecord]
  · simp [traverse, cacheHit, precedent, rootOf, hab, h, loopAux, cacheRecord]

theorem buildStepP_no_successors (g : PathGraphL) (eps : ℝ) (f : ℕ)
    (cache : CacheTable) (paths : List (List Coordinates)) (a b : Coordinates)
    (hab : b ≠ a)
    (hg : ∀ e ∈ g, e.2 = ([] : List (PlaneMatcher × (Coordinates × Coordinates)))) :
    buildStepP g eps (f + 1) ⟨cache, paths, [], []⟩ (a, b) = some ⟨[], paths, [], []⟩ := by
  have hpush : TraceSt.push { (⟨cache, paths, [], []⟩ : TraceSt) with cache := [] } (a, b).1 =
      ⟨[], paths, [a], [a]⟩ := by
    simp [TraceSt.push]
  rw [buildStepP, hpush,
    traverse_no_successors (savePathsP eps) matchFnP g f [] paths a b
      (PlaneMatcher.undefined eps) hab hg]
  simp [TraceSt.pop, removeFirst]

theorem buildStepQ_no_successors (g : PathGraphL) (eps : ℝ) (f : ℕ)
    (cache : CacheTable) (paths : List (List Coordinates)) (a b : Coordinates)
    (hab : b ≠ a)
    (hg : ∀ e ∈ g, e.2 = ([] : List (PlaneMatcher × (Coordinates × Coordinates)))) :
    buildStepQ g eps (f + 1) ⟨cache, paths, [], []⟩ (a, b) = some ⟨cache, paths, [], []⟩ := by
  have hpush : TraceSt.push (⟨cache, paths, [], []⟩ : TraceSt) (a, b).1 =
      ⟨cache, paths, [a], [a]⟩ := by
    simp [TraceSt.push]
  rw [buildStepQ, hpush,
    traverse_no_successors (savePathsQ eps) matchFnQ g f cache paths a b
      (PlaneMatcher.undefined eps) hab hg]
  simp [TraceSt.pop, removeFirst]

theorem foldP_no_successors (g : PathGraphL) (eps : ℝ) (f : ℕ)
    (hg : ∀ e ∈ g, e.2 = ([] : List (PlaneMatcher × (Coordinates × Coordinates))))
    (l : PathGraphL) (hl : ∀ e ∈ l, e.1.1 ≠ e.1.2) :
    ∀ (cache : CacheTable) (paths : List (List Coordinates)),
      ∃ cache2,
        List.foldl (fun acc e => acc.bind fun st => buildStepP g eps (f + 1) st e.1)
          (some ⟨cache, paths, [], []⟩) l = some ⟨cache2, paths, [], []⟩ := by
  induction l with
  | nil =>
      intro cache paths
      exact ⟨cache, rfl⟩
  | cons e rest ih =>
      intro cache paths
      obtain ⟨⟨a, b⟩, ev⟩ := e
      have hab : b ≠ a := (hl ((a, b), ev) (List.mem_cons_self _ _)).symm
      rw [List.foldl_cons,
        show (some (⟨cache, paths, [], []⟩ : TraceSt)).bind
          (fun st => buildStepP g eps (f + 1) st ((a, b), ev).1) =
          buildStepP g eps (f + 1) ⟨cache, paths, [], []⟩ (a, b) from rfl,
        buildStepP_no_successors g eps f cache paths a b hab hg]
      exact ih (fun e2 h2 => hl e2 (List.mem_cons_of_mem _ h2)) [] paths

theorem foldQ_no_successors (g : PathGraphL) (eps : ℝ) (f : ℕ)
    (hg : ∀ e ∈ g, e.2 = ([] : List (PlaneMatcher × (Coordinates × Coordinates))))
    (l : PathGraphL) (hl : ∀ e ∈ l, e.1.1 ≠ e.1.2) :
    ∀ (cache : CacheTable) (paths : List (List Coordinates)),
      ∃ cache2,
        List.foldl (fun acc e => acc.bind fun st => buildStepQ g eps (f + 1) st e.1)
          (some ⟨cache, paths, [], []⟩) l = some ⟨cache2, paths, [], []⟩ := by
  induction l with
  | nil =>
      intro cache paths
      exact ⟨cache, rfl⟩
  | cons e rest ih =>
      intro cache paths
      obtain ⟨⟨a, b⟩, ev⟩ := e
      have hab : b ≠ a := (hl ((a, b), ev) (List.mem_cons_self _ _)).symm
      rw [List.foldl_cons,
        show (some (⟨cache, paths, [], []⟩ : TraceSt)).bind
          (fun st => buildStepQ g eps (f + 1) st ((a, b), ev).1) =
          buildStepQ g eps (f + 1) ⟨cache, paths, [], []⟩ (a, b) from rfl,
        buildStepQ_no_successors g eps f cache paths a b hab hg]
      exact ih (fun e2 h2 => hl e2 (List.mem_cons_of_mem _ h2)) cache paths

/-- C2: the claimed equivalence of the per-root-cache tracer
(`path::PathBuilder::build`) and the shared-cache tracer
(`polygon::PolygonalPathBuilder::build`) does not hold for every graph
(`c2_counterexample` separates them); it does hold on every graph whose
connections list no successors and join distinct endpoints, where both
builds return the empty polygon set. -/
theorem c2_builders_agree_on_successorless_graphs (g : PathGraphL) (eps : ℝ) (fuel : ℕ)
    (hfuel : 1 ≤ fuel)
    (hg : ∀ e ∈ g, e.2 = ([] : List (PlaneMatcher × (Coordinates × Coordinates))) ∧
      e.1.1 ≠ e.1.2) :
    buildP g eps fuel = buildQ g eps fuel ∧ buildP g eps fuel = some [] := by
  obtain ⟨f, rfl⟩ : ∃ f, fuel = f + 1 := ⟨fuel - 1, by omega⟩
  have hg1 : ∀ e ∈ g, e.2 = ([] : List (PlaneMatcher × (Coordinates × Coordinates))) :=
    fun e he => (hg e he).1
  have hg2 : ∀ e ∈ g, e.1.1 ≠ e.1.2 := fun e he => (hg e he).2
  obtain ⟨c2, hP⟩ := foldP_no_successors g eps f hg1 g hg2 [] []
  obtain ⟨c3, hQ⟩ := foldQ_no_successors g eps f hg1 g hg2 [] []
  unfold buildP buildQ
  rw [hP, hQ]
  simp

/-- Witness for `c2_builders_agree_on_successorless_graphs` at the
one-connection graph with no successors. -/
theorem c2_witness :
    (1 ≤ 1) ∧
      (buildP [((cA, cB), [])] (1 / 10) 1 = buildQ [((cA, cB), [])] (1 / 10) 1 ∧
        buildP [((cA, cB), [])] (1 / 10) 1 = some []) :=
  ⟨le_refl 1,
    c2_builders_agree_on_successorless_graphs [((cA, cB), [])] (1 / 10) 1 (le_refl 1)
      (by
        intro e he
        simp only [List.mem_singleton] at he
        subst he
        exact ⟨rfl, cA_ne_cB⟩)⟩

end Polygonalize
